import Mathlib

/-!
Verification development for the hum2song-webui backend.

This file gives a shallow embedding, in Lean 4, of the parts of the code base
that the specification talks about:

* src/core/models.py       - the frozen response-contract models and their
                             pydantic validators;
* src/core/task_manager.py - the in-memory job store (TaskManager) and its
                             state machine;
* src/core/score_models.py - the canonical score data model and
                             normalize_score;
* src/core/score_optimize.py - OptimizeConfig and the rule based optimizer;
* src/routers/generation.py - the streaming upload size limit;
* src/routers/export.py    - the flattened-JSON export endpoint.

Modelling conventions.  Python floats are embedded as rationals (the float
level of the algorithms is below the granularity of the claims checked here);
machine integers as Int/Nat; datetimes as a Nat tick supplied by the caller;
filesystem state as an explicit record of functions; fallible constructors and
methods return Except.  Python's stable sort is embedded as a stable insertion
sort (any two stable sorts for the same total preorder agree pointwise).
-/

namespace Hum2Song

/-! ## Python numeric helpers -/

/-- Round-half-to-even of a rational to an integer: the semantics of the
builtin round() applied to a real value. -/
def rndHalfEven (q : ℚ) : ℤ :=
  if q - ⌊q⌋ < 1/2 then ⌊q⌋
  else if 1/2 < q - ⌊q⌋ then ⌊q⌋ + 1
  else if ⌊q⌋ % 2 = 0 then ⌊q⌋ else ⌊q⌋ + 1

/-- Python round(x, n): round to n decimal digits, ties to even. -/
def pyRound (q : ℚ) (n : ℕ) : ℚ := (rndHalfEven (q * 10 ^ n) : ℚ) / 10 ^ n

theorem rndHalfEven_intCast (z : ℤ) : rndHalfEven (z : ℚ) = z := by
  unfold rndHalfEven
  norm_num [Int.floor_intCast]

theorem rndHalfEven_nonneg {q : ℚ} (h : 0 ≤ q) : 0 ≤ rndHalfEven q := by
  unfold rndHalfEven
  have hf : (0:ℤ) ≤ ⌊q⌋ := Int.floor_nonneg.mpr h
  split_ifs <;> omega

theorem pyRound_idem (q : ℚ) (n : ℕ) : pyRound (pyRound q n) n = pyRound q n := by
  unfold pyRound
  have hpow : ((10:ℚ) ^ n) ≠ 0 := by positivity
  have h1 : (rndHalfEven (q * 10 ^ n) : ℚ) / 10 ^ n * 10 ^ n
      = ((rndHalfEven (q * 10 ^ n) : ℤ) : ℚ) := by
    field_simp
  rw [h1, rndHalfEven_intCast]

theorem pyRound_nonneg {q : ℚ} (n : ℕ) (h : 0 ≤ q) : 0 ≤ pyRound q n := by
  unfold pyRound
  have h1 : (0:ℤ) ≤ rndHalfEven (q * 10 ^ n) :=
    rndHalfEven_nonneg (by positivity)
  have h2 : (0:ℚ) ≤ (rndHalfEven (q * 10 ^ n) : ℚ) := by exact_mod_cast h1
  positivity

/-! ## Lexicographic sort keys

Python sorts by key tuples compared lexicographically; numeric components
compare numerically and string components compare by code points.  We embed a
key as a list of rationals followed by a list of code points and compare
lexicographically with an explicit continuation for ties. -/

/-- Lexicographic less-or-equal on rational key components, with continuation
k deciding full ties. -/
def qlexk : List ℚ → List ℚ → Bool → Bool
  | [], [], k => k
  | [], _ :: _, _ => true
  | _ :: _, [], _ => false
  | a :: as, b :: bs, k =>
    if a < b then true else if b < a then false else qlexk as bs k

/-- Lexicographic less-or-equal on code-point lists (string comparison). -/
def natListLE : List ℕ → List ℕ → Bool
  | [], _ => true
  | _ :: _, [] => false
  | a :: as, b :: bs =>
    if a < b then true else if b < a then false else natListLE as bs

/-- Code points of a string, the units Python compares strings by. -/
def strCode (s : String) : List ℕ := s.toList.map (fun c => c.val.toNat)

theorem natListLE_total : ∀ as bs, (natListLE as bs || natListLE bs as) = true := by
  intro as
  induction as with
  | nil => intro bs; simp [natListLE]
  | cons a as ih =>
    intro bs
    cases bs with
    | nil => simp [natListLE]
    | cons b bs =>
      by_cases h1 : a < b
      · simp [natListLE, h1]
      · by_cases h2 : b < a
        · simp [natListLE, h1, h2]
        · have hab : a = b := le_antisymm (not_lt.mp h2) (not_lt.mp h1)
          subst hab
          simpa [natListLE, h1, h2] using ih bs

theorem natListLE_trans : ∀ as bs cs, natListLE as bs = true → natListLE bs cs = true →
    natListLE as cs = true := by
  intro as
  induction as with
  | nil => intro bs cs _ _; simp [natListLE]
  | cons a as ih =>
    intro bs cs h1 h2
    cases bs with
    | nil => simp [natListLE] at h1
    | cons b bs =>
      cases cs with
      | nil => simp [natListLE] at h2
      | cons c cs =>
        simp only [natListLE] at h1 h2 ⊢
        split_ifs at h1 h2 ⊢ <;> first | rfl | omega | (exact ih bs cs h1 h2)

theorem qlexk_total : ∀ as bs (k₁ k₂ : Bool), (k₁ || k₂) = true →
    (qlexk as bs k₁ || qlexk bs as k₂) = true := by
  intro as
  induction as with
  | nil =>
    intro bs k₁ k₂ hk
    cases bs with
    | nil => simpa [qlexk] using hk
    | cons b bs => simp [qlexk]
  | cons a as ih =>
    intro bs k₁ k₂ hk
    cases bs with
    | nil => simp [qlexk]
    | cons b bs =>
      by_cases h1 : a < b
      · simp [qlexk, h1]
      · by_cases h2 : b < a
        · simp [qlexk, h1, h2]
        · have hab : a = b := le_antisymm (not_lt.mp h2) (not_lt.mp h1)
          subst hab
          simpa [qlexk, h1, h2] using ih bs k₁ k₂ hk

theorem qlexk_trans : ∀ as bs cs (k₁ k₂ k₃ : Bool),
    (k₁ = true → k₂ = true → k₃ = true) →
    qlexk as bs k₁ = true → qlexk bs cs k₂ = true → qlexk as cs k₃ = true := by
  intro as
  induction as with
  | nil =>
    intro bs cs k₁ k₂ k₃ hk h1 h2
    cases bs with
    | nil =>
      cases cs with
      | nil => simpa [qlexk] using hk (by simpa [qlexk] using h1) (by simpa [qlexk] using h2)
      | cons c cs => simp [qlexk]
    | cons b bs =>
      cases cs with
      | nil => simp [qlexk] at h2
      | cons c cs => simp [qlexk]
  | cons a as ih =>
    intro bs cs k₁ k₂ k₃ hk h1 h2
    cases bs with
    | nil => simp [qlexk] at h1
    | cons b bs =>
      cases cs with
      | nil => simp [qlexk] at h2
      | cons c cs =>
        simp only [qlexk] at h1 h2 ⊢
        by_cases hab : a < b
        · by_cases hbc : b < c
          · simp [lt_trans hab hbc]
          · by_cases hcb : c < b
            · simp [hbc, hcb] at h2
            · have hbceq : b = c := le_antisymm (not_lt.mp hcb) (not_lt.mp hbc)
              subst hbceq
              simp [hab]
        · by_cases hba : b < a
          · simp [hab, hba] at h1
          · have habeq : a = b := le_antisymm (not_lt.mp hba) (not_lt.mp hab)
            subst habeq
            simp only [lt_irrefl, if_false] at h1
            by_cases hac : a < c
            · simp [hac]
            · by_cases hca : c < a
              · simp [hac, hca] at h2
              · have haceq : a = c := le_antisymm (not_lt.mp hca) (not_lt.mp hac)
                subst haceq
                simp only [lt_irrefl, if_false] at h2 ⊢
                exact ih bs cs k₁ k₂ k₃ hk h1 h2

/-! ## Stable sort

Python's list.sort and sorted are stable.  Any two stable sorts for the same
total preorder coincide, so we embed them as a stable insertion sort: each
element is inserted after every already-placed element that is
less-or-equal. -/

/-- Insert a after every element b of the list with le b a. -/
def stableInsert {α : Type} (le : α → α → Bool) (a : α) : List α → List α
  | [] => [a]
  | b :: bs => if le b a then b :: stableInsert le a bs else a :: b :: bs

/-- Stable sort modelling Python's sorted(xs, key) / xs.sort(key). -/
def pySorted {α : Type} (le : α → α → Bool) (l : List α) : List α :=
  l.foldl (fun acc x => stableInsert le x acc) []

theorem stableInsert_perm {α : Type} (le : α → α → Bool) (a : α) (l : List α) :
    (stableInsert le a l).Perm (a :: l) := by
  induction l with
  | nil => simp [stableInsert]
  | cons b bs ih =>
    unfold stableInsert
    split_ifs
    · exact (ih.cons b).trans (List.Perm.swap a b bs)
    · rfl

theorem pySorted_go_perm {α : Type} (le : α → α → Bool) :
    ∀ (l acc : List α),
      (l.foldl (fun acc x => stableInsert le x acc) acc).Perm (l ++ acc) := by
  intro l
  induction l with
  | nil => intro acc; simp
  | cons a as ih =>
    intro acc
    have h2 := stableInsert_perm le a acc
    have h3 := List.Perm.append_left as h2
    have h4 : (as ++ a :: acc).Perm (a :: (as ++ acc)) := List.perm_middle
    simpa using (ih (stableInsert le a acc)).trans (h3.trans h4)

theorem pySorted_perm {α : Type} (le : α → α → Bool) (l : List α) :
    (pySorted le l).Perm l := by
  simpa [pySorted] using pySorted_go_perm le l []

theorem stableInsert_mem {α : Type} {le : α → α → Bool} {a x : α} {l : List α}
    (h : x ∈ stableInsert le a l) : x = a ∨ x ∈ l := by
  simpa using (stableInsert_perm le a l).mem_iff.mp h

theorem stableInsert_pairwise {α : Type} {le : α → α → Bool}
    (htotal : ∀ a b, (le a b || le b a) = true)
    (htrans : ∀ a b c, le a b = true → le b c = true → le a c = true)
    (a : α) {l : List α} (hl : l.Pairwise (fun x y => le x y = true)) :
    (stableInsert le a l).Pairwise (fun x y => le x y = true) := by
  induction l with
  | nil => simp [stableInsert]
  | cons b bs ih =>
    rcases List.pairwise_cons.mp hl with ⟨hb, hbs⟩
    unfold stableInsert
    split_ifs with hba
    · refine List.pairwise_cons.mpr ⟨?_, ih hbs⟩
      intro x hx
      rcases stableInsert_mem hx with rfl | hx
      · exact hba
      · exact hb x hx
    · have hab : le a b = true := by
        have htot := htotal b a
        simpa [hba] using htot
      refine List.pairwise_cons.mpr ⟨?_, hl⟩
      intro x hx
      rcases List.mem_cons.mp hx with rfl | hx
      · exact hab
      · exact htrans a b x hab (hb x hx)

theorem pySorted_go_pairwise {α : Type} {le : α → α → Bool}
    (htotal : ∀ a b, (le a b || le b a) = true)
    (htrans : ∀ a b c, le a b = true → le b c = true → le a c = true) :
    ∀ (l acc : List α), acc.Pairwise (fun x y => le x y = true) →
      (l.foldl (fun acc x => stableInsert le x acc) acc).Pairwise
        (fun x y => le x y = true) := by
  intro l
  induction l with
  | nil => intro acc hacc; simpa using hacc
  | cons a as ih =>
    intro acc hacc
    exact ih _ (stableInsert_pairwise htotal htrans a hacc)

theorem pySorted_pairwise {α : Type} {le : α → α → Bool}
    (htotal : ∀ a b, (le a b || le b a) = true)
    (htrans : ∀ a b c, le a b = true → le b c = true → le a c = true)
    (l : List α) : (pySorted le l).Pairwise (fun x y => le x y = true) :=
  pySorted_go_pairwise htotal htrans l [] (by simp)

theorem stableInsert_append {α : Type} (le : α → α → Bool) (a : α) {l : List α}
    (h : ∀ b ∈ l, le b a = true) : stableInsert le a l = l ++ [a] := by
  induction l with
  | nil => simp [stableInsert]
  | cons b bs ih =>
    have hb : le b a = true := h b (by simp)
    simp only [stableInsert, hb, if_true, List.cons_append, List.cons.injEq, true_and]
    exact ih (fun x hx => h x (by simp [hx]))

theorem pySorted_go_fix {α : Type} (le : α → α → Bool) :
    ∀ (l acc : List α),
      (∀ b ∈ acc, ∀ x ∈ l, le b x = true) →
      l.Pairwise (fun x y => le x y = true) →
      l.foldl (fun acc x => stableInsert le x acc) acc = acc ++ l := by
  intro l
  induction l with
  | nil => intro acc _ _; simp
  | cons a as ih =>
    intro acc hacc hl
    rcases List.pairwise_cons.mp hl with ⟨ha, has⟩
    have hins : stableInsert le a acc = acc ++ [a] :=
      stableInsert_append le a (fun b hb => hacc b hb a (by simp))
    have hstep : ∀ b ∈ acc ++ [a], ∀ x ∈ as, le b x = true := by
      intro b hb x hx
      rcases List.mem_append.mp hb with hb | hb
      · exact hacc b hb x (by simp [hx])
      · have hba : b = a := by simpa using hb
        subst hba
        exact ha x hx
    calc (a :: as).foldl (fun acc x => stableInsert le x acc) acc
        = as.foldl (fun acc x => stableInsert le x acc) (acc ++ [a]) := by
          simp [List.foldl, hins]
      _ = (acc ++ [a]) ++ as := ih (acc ++ [a]) hstep has
      _ = acc ++ a :: as := by simp

theorem pySorted_of_pairwise {α : Type} {le : α → α → Bool} {l : List α}
    (hl : l.Pairwise (fun x y => le x y = true)) : pySorted le l = l := by
  simpa [pySorted] using pySorted_go_fix le l [] (by simp) hl

/-! ## core/models.py : frozen contract enums and models -/

/-- TaskStatus enum. -/
inductive TaskStatus
  | queued
  | running
  | completed
  | failed
deriving DecidableEq, Repr

/-- Stage enum. -/
inductive Stage
  | preprocessing
  | converting
  | synthesizing
  | finalizing
deriving DecidableEq, Repr

/-- FileType enum. -/
inductive FileType
  | audio
  | midi
deriving DecidableEq, Repr

/-- OutputFormat enum; mid is only for file_type=midi. -/
inductive OutputFormat
  | mp3
  | wav
  | mid
deriving DecidableEq, Repr

/-- String value of a FileType member, as interpolated into download URLs. -/
def FileType.value : FileType → String
  | .audio => "audio"
  | .midi => "midi"

/-! ## Path helpers (pathlib semantics, for normalized paths with no
trailing slash) -/

/-- Final component of a path (pathlib PurePath.name, on normalized paths
with no trailing slash): the characters after the last slash. -/
def pathName (p : String) : String :=
  String.mk (p.toList.foldl (fun acc c => if c = '/' then [] else acc ++ [c]) [])

/-- ASCII lowercasing of one character, as str.lower acts on paths. -/
def lowerChar (c : Char) : Char :=
  if c.toNat ≥ 65 ∧ c.toNat ≤ 90 then Char.ofNat (c.toNat + 32) else c

/-- ASCII lowercasing of a string (str.lower on an extension). -/
def strLower (s : String) : String := String.mk (s.toList.map lowerChar)

/-- Index of the last dot in a character list (str.rfind of a dot). -/
def lastDotIdx (cs : List Char) : Option ℕ :=
  ((List.range cs.length).filter (fun i => cs.getD i ' ' == '.')).getLast?

/-- Extension of a path including the leading dot (pathlib PurePath.suffix):
the final component from its last dot on, unless that dot is its first or
last character. -/
def pathSuffix (p : String) : String :=
  let name := (pathName p).toList
  match lastDotIdx name with
  | none => ""
  | some i =>
    if 0 < i ∧ i < name.length - 1 then String.mk (name.drop i) else ""

/-- Helper _infer_output_format_from_path of core/task_manager.py: guess the
format from the lowercased extension, defaulting to mp3. -/
def _infer_output_format_from_path (p : String) : OutputFormat :=
  let suf := strLower (pathSuffix p)
  if suf = ".mp3" then .mp3
  else if suf = ".wav" then .wav
  else if suf = ".mid" ∨ suf = ".midi" then .mid
  else .mp3

/-! ## Contract models with their pydantic validation -/

/-- Typed store and validation errors, each tagged with the Python exception
the corresponding raise site uses. -/
inductive TmErr
  | alreadyFinal
  | notCompleted
  | outOfRange
  | fileMissing
  | invalidResult
  | invalidError
deriving DecidableEq, Repr

/-- TaskError schema. -/
structure TaskError where
  message : String
  trace_id : Option String
deriving DecidableEq, Repr

/-- Field constraints of TaskError: message has min_length=1. -/
def TaskError.validB (e : TaskError) : Bool := decide (1 ≤ e.message.length)

/-- Pydantic construction of a TaskError (raises ValidationError on an empty
message). -/
def TaskError.make (message : String) (trace_id : Option String) :
    Except TmErr TaskError :=
  let e : TaskError := ⟨message, trace_id⟩
  if e.validB then .ok e else .error .invalidError

/-- TaskResult schema. -/
structure TaskResult where
  file_type : FileType
  output_format : OutputFormat
  filename : String
  download_url : String
deriving DecidableEq, Repr

/-- Field constraints (min_length 1 on filename and download_url) plus the
_validate_result_consistency model validator of TaskResult. -/
def TaskResult.validB (r : TaskResult) : Bool :=
  decide (1 ≤ r.filename.length) && decide (1 ≤ r.download_url.length) &&
  !(decide (r.file_type = FileType.midi) && decide (r.output_format ≠ OutputFormat.mid)) &&
  !(decide (r.file_type = FileType.audio) && decide (r.output_format = OutputFormat.mid))

/-- Pydantic construction of a TaskResult (raises ValidationError when the
consistency rules fail). -/
def TaskResult.make (file_type : FileType) (output_format : OutputFormat)
    (filename download_url : String) : Except TmErr TaskResult :=
  let r : TaskResult := ⟨file_type, output_format, filename, download_url⟩
  if r.validB then .ok r else .error .invalidResult

/-- math.isclose with explicit relative and absolute tolerances. -/
def math_isclose (a b rel_tol abs_tol : ℚ) : Bool :=
  decide (|a - b| ≤ max (rel_tol * max |a| |b|) abs_tol)

/-- TaskInfoResponse schema: the job snapshot returned by the store. -/
structure TaskInfoResponse where
  task_id : String
  status : TaskStatus
  progress : ℚ
  stage : Stage
  created_at : ℕ
  updated_at : ℕ
  result : Option TaskResult
  error : Option TaskError
deriving DecidableEq, Repr

/-- Pydantic validation of a TaskInfoResponse: the progress field bounds
(ge=0.0, le=1.0), validity of the nested models, then the frozen
_validate_invariants model validator.  The completed branch tolerates tiny
floating error via math.isclose(progress, 1.0, abs_tol=1e-9) with the default
rel_tol=1e-9. -/
def TaskInfoResponse.validate (r : TaskInfoResponse) :
    Except String TaskInfoResponse :=
  if ¬ (0 ≤ r.progress ∧ r.progress ≤ 1) then
    .error "progress must be within [0.0, 1.0]"
  else if ¬ r.result.all TaskResult.validB then .error "invalid result"
  else if ¬ r.error.all TaskError.validB then .error "invalid error"
  else if r.status = TaskStatus.completed then
    if r.result = none then
      .error "status=completed requires result to be non-null"
    else if r.error ≠ none then
      .error "status=completed requires error to be null"
    else if ¬ math_isclose r.progress 1 (1/1000000000) (1/1000000000) then
      .error "status=completed requires progress=1.0"
    else .ok r
  else if r.status = TaskStatus.failed then
    if r.error = none then .error "status=failed requires error to be non-null"
    else if r.result ≠ none then .error "status=failed requires result to be null"
    else .ok r
  else
    if r.result ≠ none then
      .error "status=queued/running requires result to be null"
    else if r.error ≠ none then
      .error "status=queued/running requires error to be null"
    else .ok r

/-! ## core/task_manager.py : the job store -/

/-- Filesystem interface consumed by the store: path resolution
(Path.expanduser().resolve()) and on-disk existence (Path.exists()). -/
structure Fs where
  resolve : String → String
  pathExists : String → Bool

/-- Artifact-path mapping of a record (the Dict from FileType to absolute
path). -/
structure ArtifactMap where
  audio : Option String
  midi : Option String
deriving DecidableEq, Repr

/-- Empty artifact mapping. -/
def ArtifactMap.empty : ArtifactMap := ⟨none, none⟩

/-- Dictionary lookup. -/
def ArtifactMap.get (m : ArtifactMap) : FileType → Option String
  | .audio => m.audio
  | .midi => m.midi

/-- Dictionary assignment. -/
def ArtifactMap.set (m : ArtifactMap) : FileType → String → ArtifactMap
  | .audio, p => ⟨some p, m.midi⟩
  | .midi, p => ⟨m.audio, some p⟩

/-- Internal _TaskRecord stored by the TaskManager. -/
structure TaskRecord where
  task_id : String
  status : TaskStatus
  progress : ℚ
  stage : Stage
  created_at : ℕ
  updated_at : ℕ
  result : Option TaskResult
  error : Option TaskError
  artifact_paths : ArtifactMap
deriving DecidableEq, Repr

/-- TaskManager._is_finalized. -/
def _is_finalized (s : TaskStatus) : Bool :=
  decide (s = TaskStatus.completed) || decide (s = TaskStatus.failed)

/-- TaskManager.create_task: a fresh queued record with progress 0.0 and the
given stage.  The caller supplies the fresh id and the current clock tick. -/
def create_task (tid : String) (stage : Stage) (now : ℕ) : TaskRecord :=
  { task_id := tid, status := .queued, progress := 0, stage := stage,
    created_at := now, updated_at := now, result := none, error := none,
    artifact_paths := ArtifactMap.empty }

/-- TaskManager.mark_running. -/
def mark_running (rec : TaskRecord) (stage : Option Stage) (now : ℕ) :
    Except TmErr TaskRecord :=
  if _is_finalized rec.status then .error .alreadyFinal
  else .ok { rec with
    status := .running,
    stage := stage.getD rec.stage,
    updated_at := now }

/-- TaskManager.update_progress: range check first (ValueError), then the
finalization check (RuntimeError), then queued is promoted to running. -/
def update_progress (rec : TaskRecord) (progress : ℚ) (stage : Option Stage)
    (now : ℕ) : Except TmErr TaskRecord :=
  if ¬ (0 ≤ progress ∧ progress ≤ 1) then .error .outOfRange
  else if _is_finalized rec.status then .error .alreadyFinal
  else .ok { rec with
    status := if rec.status = TaskStatus.queued then .running else rec.status,
    progress := progress,
    stage := stage.getD rec.stage,
    updated_at := now }

/-- Python expression filename or p.name of mark_completed: an absent or
empty filename falls back to the final path component. -/
def effFilename (filename : Option String) (p : String) : String :=
  match filename with
  | some f => if f = "" then pathName p else f
  | none => pathName p

/-- TaskResult payload built and validated by mark_completed: an absent
output_format is inferred from the resolved path, and download_url has the
shape /tasks/(id)/download?file_type=(kind). -/
def completed_result (tid : String) (p : String) (file_type : FileType)
    (output_format : Option OutputFormat) (filename : Option String) :
    Except TmErr TaskResult :=
  TaskResult.make file_type
    (output_format.getD (_infer_output_format_from_path p))
    (effFilename filename p)
    ("/tasks/" ++ tid ++ "/download?file_type=" ++ file_type.value)

/-- TaskManager.mark_completed.  The path is resolved and checked on disk and
the TaskResult is validated by pydantic before the finalization check, exactly
as in the source. -/
def mark_completed (fs : Fs) (rec : TaskRecord) (artifact_path : String)
    (file_type : FileType) (output_format : Option OutputFormat)
    (filename : Option String) (now : ℕ) : Except TmErr TaskRecord :=
  let p := fs.resolve artifact_path
  if ¬ fs.pathExists p then .error .fileMissing
  else
    match completed_result rec.task_id p file_type output_format filename with
    | .error e => .error e
    | .ok result =>
      if _is_finalized rec.status then .error .alreadyFinal
      else .ok { rec with
        status := .completed, progress := 1, stage := Stage.finalizing,
        result := some result, error := none,
        artifact_paths := rec.artifact_paths.set file_type p,
        updated_at := now }

/-- TaskManager.mark_failed.  The TaskError is built (and validated) before
the finalization check. -/
def mark_failed (rec : TaskRecord) (message : String) (trace_id : Option String)
    (stage : Option Stage) (now : ℕ) : Except TmErr TaskRecord :=
  match TaskError.make message trace_id with
  | .error e => .error e
  | .ok err =>
    if _is_finalized rec.status then .error .alreadyFinal
    else .ok { rec with
      status := .failed, stage := stage.getD rec.stage,
      result := none, error := some err, updated_at := now }

/-- TaskManager.attach_artifact: rebinding on an already completed record. -/
def attach_artifact (fs : Fs) (rec : TaskRecord) (artifact_path : String)
    (file_type : FileType) (now : ℕ) : Except TmErr TaskRecord :=
  let p := fs.resolve artifact_path
  if ¬ fs.pathExists p then .error .fileMissing
  else if rec.status ≠ TaskStatus.completed then .error .notCompleted
  else .ok { rec with
    artifact_paths := rec.artifact_paths.set file_type p,
    updated_at := now }

/-- TaskManager.get_task_info: copies the record fields into a
TaskInfoResponse, which pydantic validates. -/
def get_task_info (rec : TaskRecord) : Except String TaskInfoResponse :=
  TaskInfoResponse.validate
    { task_id := rec.task_id, status := rec.status, progress := rec.progress,
      stage := rec.stage, created_at := rec.created_at,
      updated_at := rec.updated_at, result := rec.result, error := rec.error }

/-- Records producible by the store: create_task followed by any sequence of
successful mutations (each with its own clock tick and filesystem view). -/
inductive Reachable : TaskRecord → Prop
  | create (tid : String) (stage : Stage) (now : ℕ) :
      Reachable (create_task tid stage now)
  | run {r r' : TaskRecord} (stage : Option Stage) (now : ℕ) :
      Reachable r → mark_running r stage now = .ok r' → Reachable r'
  | progress {r r' : TaskRecord} (p : ℚ) (stage : Option Stage) (now : ℕ) :
      Reachable r → update_progress r p stage now = .ok r' → Reachable r'
  | complete {r r' : TaskRecord} (fs : Fs) (path : String) (ft : FileType)
      (ofmt : Option OutputFormat) (fname : Option String) (now : ℕ) :
      Reachable r → mark_completed fs r path ft ofmt fname now = .ok r' →
      Reachable r'
  | fail {r r' : TaskRecord} (msg : String) (tr : Option String)
      (stage : Option Stage) (now : ℕ) :
      Reachable r → mark_failed r msg tr stage now = .ok r' → Reachable r'
  | attach {r r' : TaskRecord} (fs : Fs) (path : String) (ft : FileType)
      (now : ℕ) :
      Reachable r → attach_artifact fs r path ft now = .ok r' → Reachable r'

/-- Store invariant: contract invariants of a record, with exact progress 1.0
on completion. -/
def RecordInv (rec : TaskRecord) : Prop :=
  0 ≤ rec.progress ∧ rec.progress ≤ 1 ∧
  rec.result.all TaskResult.validB = true ∧
  rec.error.all TaskError.validB = true ∧
  (match rec.status with
   | .completed => rec.result ≠ none ∧ rec.error = none ∧ rec.progress = 1
   | .failed => rec.error ≠ none ∧ rec.result = none
   | _ => rec.result = none ∧ rec.error = none : Prop)

theorem TaskError.makeOk {m : String} {t : Option String} {e : TaskError}
    (h : TaskError.make m t = .ok e) : e = ⟨m, t⟩ ∧ e.validB = true := by
  simp only [TaskError.make] at h
  split_ifs at h with hv
  · simp only [Except.ok.injEq] at h
    subst h
    exact ⟨rfl, hv⟩

theorem TaskResult.mkResultOk {ft : FileType} {fmt : OutputFormat}
    {n u : String} {result : TaskResult}
    (h : TaskResult.make ft fmt n u = .ok result) :
    result = ⟨ft, fmt, n, u⟩ ∧ result.validB = true := by
  simp only [TaskResult.make] at h
  split_ifs at h with hv
  · simp only [Except.ok.injEq] at h
    subst h
    exact ⟨rfl, hv⟩

theorem mark_running_ok {rec : TaskRecord} {stage : Option Stage} {now : ℕ}
    {r' : TaskRecord} (h : mark_running rec stage now = .ok r') :
    _is_finalized rec.status = false ∧
    r' = { rec with
      status := .running,
      stage := stage.getD rec.stage,
      updated_at := now } := by
  unfold mark_running at h
  split_ifs at h with hfin
  simp only [Except.ok.injEq] at h
  exact ⟨by simpa using hfin, h.symm⟩

theorem update_progress_ok {rec : TaskRecord} {p : ℚ} {stage : Option Stage}
    {now : ℕ} {r' : TaskRecord} (h : update_progress rec p stage now = .ok r') :
    (0 ≤ p ∧ p ≤ 1) ∧ _is_finalized rec.status = false ∧
    r' = { rec with
      status := if rec.status = TaskStatus.queued then .running else rec.status,
      progress := p,
      stage := stage.getD rec.stage,
      updated_at := now } := by
  unfold update_progress at h
  split_ifs at h with hrange hfin hq
  · simp only [Except.ok.injEq] at h
    exact ⟨hrange, by simpa using hfin, by rw [if_pos hq]; exact h.symm⟩
  · simp only [Except.ok.injEq] at h
    exact ⟨hrange, by simpa using hfin, by rw [if_neg hq]; exact h.symm⟩

theorem mark_completed_ok {fs : Fs} {rec : TaskRecord} {path : String}
    {ft : FileType} {ofmt : Option OutputFormat} {fname : Option String}
    {now : ℕ} {r' : TaskRecord}
    (h : mark_completed fs rec path ft ofmt fname now = .ok r') :
    fs.pathExists (fs.resolve path) = true ∧
    _is_finalized rec.status = false ∧
    ∃ result : TaskResult,
      completed_result rec.task_id (fs.resolve path) ft ofmt fname
        = .ok result ∧
      r' = { rec with
        status := .completed,
        progress := 1,
        stage := Stage.finalizing,
        result := some result,
        error := none,
        artifact_paths := rec.artifact_paths.set ft (fs.resolve path),
        updated_at := now } := by
  simp only [mark_completed] at h
  cases hmk : completed_result rec.task_id (fs.resolve path) ft ofmt fname with
  | error e =>
    rw [hmk] at h
    split_ifs at h with hmiss
  | ok result =>
    rw [hmk] at h
    split_ifs at h with hmiss hfin
    simp only [Except.ok.injEq] at h
    exact ⟨by simpa using hmiss, by simpa using hfin, result, rfl, h.symm⟩

theorem mark_failed_ok {rec : TaskRecord} {msg : String} {tr : Option String}
    {stage : Option Stage} {now : ℕ} {r' : TaskRecord}
    (h : mark_failed rec msg tr stage now = .ok r') :
    _is_finalized rec.status = false ∧
    ∃ err : TaskError, TaskError.make msg tr = .ok err ∧
      r' = { rec with
        status := .failed,
        stage := stage.getD rec.stage,
        result := none,
        error := some err,
        updated_at := now } := by
  unfold mark_failed at h
  cases hmk : TaskError.make msg tr with
  | error e => rw [hmk] at h; simp at h
  | ok err =>
    rw [hmk] at h
    split_ifs at h with hfin
    simp only [Except.ok.injEq] at h
    exact ⟨by simpa using hfin, err, rfl, h.symm⟩

theorem attach_artifact_ok {fs : Fs} {rec : TaskRecord} {path : String}
    {ft : FileType} {now : ℕ} {r' : TaskRecord}
    (h : attach_artifact fs rec path ft now = .ok r') :
    fs.pathExists (fs.resolve path) = true ∧
    rec.status = TaskStatus.completed ∧
    r' = { rec with
      artifact_paths := rec.artifact_paths.set ft (fs.resolve path),
      updated_at := now } := by
  simp only [attach_artifact] at h
  split_ifs at h with hmiss hneq
  simp only [Except.ok.injEq] at h
  exact ⟨by simpa using hmiss, not_not.mp hneq, h.symm⟩

theorem not_finalized_cases {s : TaskStatus} (h : _is_finalized s = false) :
    s = TaskStatus.queued ∨ s = TaskStatus.running := by
  cases s <;> simp_all [_is_finalized]

theorem reachable_inv {rec : TaskRecord} (h : Reachable rec) : RecordInv rec := by
  induction h with
  | create tid stage now =>
    simp [RecordInv, create_task]
  | run stage now hr hok ih =>
    rename_i r r'
    obtain ⟨hfin, hrec⟩ := mark_running_ok hok
    subst hrec
    obtain ⟨h0, h1, hres, herr, hcase⟩ := ih
    rcases not_finalized_cases hfin with hst | hst <;>
      (rw [hst] at hcase; simp only at hcase;
       exact ⟨h0, h1, hres, herr, by simpa using hcase⟩)
  | progress p stage now hr hok ih =>
    rename_i r r'
    obtain ⟨⟨hp0, hp1⟩, hfin, hrec⟩ := update_progress_ok hok
    subst hrec
    obtain ⟨h0, h1, hres, herr, hcase⟩ := ih
    rcases not_finalized_cases hfin with hst | hst <;>
      (rw [hst] at hcase ⊢; simp only at hcase ⊢;
       exact ⟨hp0, hp1, hres, herr, by simpa using hcase⟩)
  | complete fs path ft ofmt fname now hr hok ih =>
    rename_i r r'
    obtain ⟨hmiss, hfin, result, hmk, hrec⟩ := mark_completed_ok hok
    subst hrec
    obtain ⟨hre, hval⟩ := TaskResult.mkResultOk hmk
    exact ⟨by norm_num, le_refl 1, by simpa using hval, by simp, by simp⟩
  | fail msg tr stage now hr hok ih =>
    rename_i r r'
    obtain ⟨hfin, err, hmk, hrec⟩ := mark_failed_ok hok
    subst hrec
    obtain ⟨h0, h1, hres, herr, hcase⟩ := ih
    obtain ⟨herrv, hval⟩ := TaskError.makeOk hmk
    exact ⟨h0, h1, by simp, by simpa using hval, by simp⟩
  | attach fs path ft now hr hok ih =>
    rename_i r r'
    obtain ⟨hmiss, hst, hrec⟩ := attach_artifact_ok hok
    subst hrec
    obtain ⟨h0, h1, hres, herr, hcase⟩ := ih
    rw [hst] at hcase
    exact ⟨h0, h1, hres, herr, by simpa [hst] using hcase⟩

/-! ## core/score_models.py : canonical score model -/

/-- NoteEvent: pitch 0-127, start ≥ 0 seconds, duration > 0 seconds,
velocity 1-127 (default 64), optional stable id. -/
structure NoteEvent where
  id : Option String
  pitch : ℤ
  start : ℚ
  duration : ℚ
  velocity : ℤ
deriving DecidableEq, Repr

/-- Pydantic field constraints of NoteEvent. -/
def NoteEvent.validB (n : NoteEvent) : Bool :=
  decide (0 ≤ n.pitch) && decide (n.pitch ≤ 127) &&
  decide (0 ≤ n.start) && decide (0 < n.duration) &&
  decide (1 ≤ n.velocity) && decide (n.velocity ≤ 127)

/-- Track.  The name field admits str, int or None on input (the model was
widened so normalize can coerce it to str later); program 0-127,
channel 0-15. -/
structure Track where
  id : Option String
  name : Option (String ⊕ ℤ)
  program : Option ℤ
  channel : Option ℤ
  notes : List NoteEvent
deriving DecidableEq, Repr

/-- Pydantic field constraints of Track. -/
def Track.validB (t : Track) : Bool :=
  (t.program.all fun p => decide (0 ≤ p) && decide (p ≤ 127)) &&
  (t.channel.all fun c => decide (0 ≤ c) && decide (c ≤ 15)) &&
  t.notes.all NoteEvent.validB

/-- ScoreDoc: schema version, tempo_bpm > 0, time signature, tracks. -/
structure ScoreDoc where
  version : ℤ
  tempo_bpm : ℚ
  time_signature : String
  tracks : List Track
deriving DecidableEq, Repr

/-- Pydantic field constraints of ScoreDoc (tempo_bpm has gt=0.0). -/
def ScoreDoc.validB (d : ScoreDoc) : Bool :=
  decide (0 < d.tempo_bpm) && d.tracks.all Track.validB

/-- Python str() applied to a track-name value (str of an int renders the
integer). -/
def pyStrName : String ⊕ ℤ → String
  | .inl s => s
  | .inr z => toString z

/-- Python f-string rendering of an optional int (None prints as None). -/
def pyShowOptInt : Option ℤ → String
  | none => "None"
  | some z => toString z

/-- Python f-string rendering of an optional string. -/
def pyShowOptStr : Option String → String
  | none => "None"
  | some s => s

/-- Python falsiness of an optional string: None and the empty string. -/
def strFalsy : Option String → Bool
  | none => true
  | some s => s == ""

/-- Rendering of a float in an f-string key.  The hash consuming these keys
is abstract here, so any fixed rendering of the (already rounded) values is
observationally equivalent. -/
def qRepr (q : ℚ) : String := toString q

/-- Helper _sha1_short of core/score_models.py.  The parameter sha1_hex
abstracts hashlib.sha1(s.encode()).hexdigest(), an external library
primitive; every theorem below holds for an arbitrary hash function. -/
def _sha1_short (sha1_hex : String → String) (s : String) (n : ℕ) : String :=
  (sha1_hex s).take n

/-- Rounding pass of normalize_score over one note: start and duration are
rounded to round_ndigits decimals; velocity passes through int(), the
identity on the embedded integer. -/
def roundNote (round_ndigits : ℕ) (ne : NoteEvent) : NoteEvent :=
  { ne with
    start := pyRound ne.start round_ndigits
    duration := pyRound ne.duration round_ndigits }

/-- Content key of a note used for id derivation:
pitch, start, duration, velocity joined by bars. -/
def noteContentKey (ne : NoteEvent) : String :=
  toString ne.pitch ++ "|" ++ qRepr ne.start ++ "|" ++ qRepr ne.duration
    ++ "|" ++ toString ne.velocity

/-- Note-id assignment loop of normalize_score: notes with a truthy id are
skipped; the rest get n_ plus a truncated hash of track id, content key and a
per-key occurrence counter (the counter only advances on assignment). -/
def assignNoteIds (sha1_hex : String → String) (trackId : Option String)
    (seen : String → ℕ) : List NoteEvent → List NoteEvent
  | [] => []
  | ne :: rest =>
    if ¬ strFalsy ne.id then ne :: assignNoteIds sha1_hex trackId seen rest
    else
      let key := noteContentKey ne
      let occ := seen key
      let base := pyShowOptStr trackId ++ "|" ++ key ++ "|" ++ toString occ
      { ne with id := some ("n_" ++ _sha1_short sha1_hex base 12) } ::
        assignNoteIds sha1_hex trackId
          (fun k => if k = key then occ + 1 else seen k) rest

/-- Sort key of normalize_score:
(float(start), int(pitch), float(duration), int(velocity), id or ""). -/
def noteKeyLE (a b : NoteEvent) : Bool :=
  qlexk [a.start, (a.pitch : ℚ), a.duration, (a.velocity : ℚ)]
        [b.start, (b.pitch : ℚ), b.duration, (b.velocity : ℚ)]
        (natListLE (strCode (a.id.getD "")) (strCode (b.id.getD "")))

/-- Per-track body of normalize_score at track index ti: coerce the name,
round the notes, ensure track and note ids, sort the notes by noteKeyLE. -/
def normalizeTrack (sha1_hex : String → String) (round_ndigits : ℕ)
    (ensure_ids : Bool) (ti : ℕ) (tr : Track) : Track :=
  let name : String ⊕ ℤ := match tr.name with
    | none => .inl ("Track" ++ toString ti)
    | some v => .inl (pyStrName v)
  let notes1 := tr.notes.map (roundNote round_ndigits)
  let tid : Option String :=
    if ensure_ids ∧ strFalsy tr.id then
      some ("t_" ++ _sha1_short sha1_hex
        (toString ti ++ "|" ++ pyStrName name ++ "|"
          ++ pyShowOptInt tr.channel ++ "|" ++ pyShowOptInt tr.program) 10)
    else tr.id
  let notes2 :=
    if ensure_ids then assignNoteIds sha1_hex tid (fun _ => 0) notes1
    else notes1
  { id := tid
    name := some name
    program := tr.program
    channel := tr.channel
    notes := pySorted noteKeyLE notes2 }

/-- Function normalize_score of core/score_models.py.  The entry
model_dump / model_validate round trip re-validates the input (the returned
model is mutated without re-validation, exactly as pydantic does with
validate_assignment unset). -/
def normalize_score (sha1_hex : String → String) (doc : ScoreDoc)
    (round_ndigits : ℕ) (ensure_ids : Bool) : Except String ScoreDoc :=
  if ¬ doc.validB then .error "validation error"
  else .ok { doc with
    tracks := doc.tracks.enum.map
      (fun p => normalizeTrack sha1_hex round_ndigits ensure_ids p.1 p.2) }

/-! ## core/score_optimize.py : the rule based optimizer -/

/-- Quantize modes. -/
inductive QuantizeMode
  | nearest
  | ceil
  | floor
deriving DecidableEq, Repr

/-- OptimizeConfig dataclass. -/
structure OptimizeConfig where
  grid_div : Option ℤ
  quantize_mode : QuantizeMode
  min_pitch : Option ℤ
  max_pitch : Option ℤ
  velocity_target : Option ℤ
  drop_weak_short_notes : Bool
  noise_min_duration : ℚ
  noise_min_velocity : ℤ
  merge_same_pitch_overlaps : Bool
  make_monophonic : Bool
  monophonic_switch_strength_ratio : ℚ
  monophonic_min_switch_duration : ℚ
  monophonic_switch_after_frac : ℚ
  monophonic_delay_weak_overlaps : Bool
  eps : ℚ
deriving DecidableEq, Repr

/-- Dataclass defaults of OptimizeConfig in the source: velocity levelling to
80, weak-short-note dropping and monophonic reduction are all on by
default. -/
def _default_config : OptimizeConfig :=
  { grid_div := none
    quantize_mode := .nearest
    min_pitch := none
    max_pitch := none
    velocity_target := some 80
    drop_weak_short_notes := true
    noise_min_duration := 6/100
    noise_min_velocity := 30
    merge_same_pitch_overlaps := false
    make_monophonic := true
    monophonic_switch_strength_ratio := 11/10
    monophonic_min_switch_duration := 1/10
    monophonic_switch_after_frac := 3/10
    monophonic_delay_weak_overlaps := false
    eps := 1/1000000000 }

/-- Configuration the CLI safe preset builds when no explicit flag is given
(hum2song/cli.py, cmd_score_optimize with preset=safe): no quantization, no
pitch clamps, velocity levelling off (the velocity flag defaults to 0), zero
noise thresholds, no merging, polyphony kept. -/
def _safe_config : OptimizeConfig :=
  { _default_config with
    velocity_target := none
    noise_min_duration := 0
    noise_min_velocity := 0
    make_monophonic := false }

/-- Helper _step_seconds: None or a non-positive grid_div disables the
grid. -/
def _step_seconds (tempo_bpm : ℚ) (grid_div : Option ℤ) : ℚ :=
  match grid_div with
  | none => 0
  | some g => if g ≤ 0 then 0 else (60 / tempo_bpm) / g

/-- Helper _is_noise: shorter than noise_min_duration and weaker than
noise_min_velocity. -/
def _is_noise (ne : NoteEvent) (cfg : OptimizeConfig) : Bool :=
  decide (ne.duration < cfg.noise_min_duration) &&
  decide (ne.velocity < cfg.noise_min_velocity)

/-- Helper _quantize_value: map t to a grid multiple under the selected mode,
zeroing values below eps and truncating float noise at 10 decimals. -/
def _quantize_value (t : ℚ) (step : ℚ) (mode : QuantizeMode) (eps : ℚ) : ℚ :=
  if step ≤ 0 then t
  else
    let x := t / step
    let k : ℤ := match mode with
      | .nearest => rndHalfEven x
      | .ceil => ⌈x - eps⌉
      | .floor => ⌊x + eps⌋
    let q := (k : ℚ) * step
    let q2 := if |q| < eps then 0 else q
    pyRound q2 10

/-- Helper _quantize_note: quantize start and end, recompute the duration,
keep it positive (one step, or for a disabled grid the original duration
bounded below by a millisecond). -/
def _quantize_note (ne : NoteEvent) (cfg : OptimizeConfig) (step : ℚ) :
    NoteEvent :=
  let s := _quantize_value ne.start step cfg.quantize_mode cfg.eps
  let e := _quantize_value (ne.start + ne.duration) step cfg.quantize_mode cfg.eps
  let e2 := if e ≤ s + cfg.eps then
      s + (if step > 0 then step else max ne.duration (1/1000))
    else e
  { id := none, pitch := ne.pitch, start := s,
    duration := pyRound (e2 - s) 10, velocity := ne.velocity }

/-- Sort key (pitch, start, -duration) used before merging. -/
def mergePitchStartLE (a b : NoteEvent) : Bool :=
  qlexk [(a.pitch : ℚ), a.start, -a.duration]
        [(b.pitch : ℚ), b.start, -b.duration] true

/-- Final sort key (start, pitch) of the optimizer. -/
def startPitchLE (a b : NoteEvent) : Bool :=
  qlexk [a.start, (a.pitch : ℚ)] [b.start, (b.pitch : ℚ)] true

/-- Sort key (start, -velocity, -duration) of the monophonic reduction. -/
def monoSortLE (a b : NoteEvent) : Bool :=
  qlexk [a.start, -(a.velocity : ℚ), -a.duration]
        [b.start, -(b.velocity : ℚ), -b.duration] true

/-- Accumulating loop of _merge_same_pitch_overlaps: cur is the open note,
cur_end its end; a note of another pitch, or starting beyond cur_end plus
eps, closes cur; otherwise the two merge (min start, max end, max
velocity). -/
def _merge_loop (cfg : OptimizeConfig) (cur : NoteEvent) (cur_end : ℚ) :
    List NoteEvent → List NoteEvent
  | [] => [cur]
  | ne :: rest =>
    let ne_end := ne.start + ne.duration
    if ne.pitch ≠ cur.pitch ∨ ne.start > cur_end + cfg.eps then
      cur :: _merge_loop cfg ne ne_end rest
    else
      let new_start := min cur.start ne.start
      let new_end := max cur_end ne_end
      let cur2 : NoteEvent :=
        { id := none, pitch := cur.pitch, start := new_start,
          duration := pyRound (new_end - new_start) 10,
          velocity := max cur.velocity ne.velocity }
      _merge_loop cfg cur2 (cur2.start + cur2.duration) rest

/-- Helper _merge_same_pitch_overlaps: sort by (pitch, start, -duration),
merge, re-sort by (start, pitch). -/
def _merge_same_pitch_overlaps (notes : List NoteEvent) (cfg : OptimizeConfig) :
    List NoteEvent :=
  match pySorted mergePitchStartLE notes with
  | [] => []
  | first :: rest =>
    pySorted startPitchLE (_merge_loop cfg first (first.start + first.duration) rest)

/-- Main loop of _make_monophonic over the sorted notes, carrying the Python
out list (whose last element may still be trimmed). -/
def _mono_loop (cfg : OptimizeConfig) (out : List NoteEvent) :
    List NoteEvent → List NoteEvent
  | [] => out
  | ne :: rest =>
    if cfg.drop_weak_short_notes && _is_noise ne cfg then
      _mono_loop cfg out rest
    else
      match out.getLast? with
      | none => _mono_loop cfg (out ++ [ne]) rest
      | some prev =>
        let prev_end := prev.start + prev.duration
        if ne.start ≥ prev_end - cfg.eps then _mono_loop cfg (out ++ [ne]) rest
        else if _is_noise ne cfg then _mono_loop cfg out rest
        else
          let prev_strength := (prev.velocity : ℚ) * prev.duration
          let ne_strength := (ne.velocity : ℚ) * ne.duration
          let prev_progress :=
            if prev.duration > cfg.eps then (ne.start - prev.start) / prev.duration
            else 0
          let should_switch :=
            decide (ne.duration ≥ cfg.monophonic_min_switch_duration) &&
            (decide (ne_strength ≥ prev_strength * cfg.monophonic_switch_strength_ratio) ||
             decide (prev_progress ≥ cfg.monophonic_switch_after_frac))
          if should_switch then
            let trimmed := max cfg.eps (ne.start - prev.start)
            let prev2 : NoteEvent :=
              { id := none, pitch := prev.pitch, start := prev.start,
                duration := trimmed, velocity := prev.velocity }
            _mono_loop cfg (out.dropLast ++ [prev2, ne]) rest
          else if cfg.monophonic_delay_weak_overlaps then
            let shifted : NoteEvent :=
              { id := none, pitch := ne.pitch, start := prev_end,
                duration := ne.duration, velocity := ne.velocity }
            _mono_loop cfg (out ++ [shifted]) rest
          else _mono_loop cfg out rest

/-- Helper _make_monophonic: sort by (start, -velocity, -duration) and run
the reduction loop. -/
def _make_monophonic (notes : List NoteEvent) (cfg : OptimizeConfig) :
    List NoteEvent :=
  if notes = [] then [] else _mono_loop cfg [] (pySorted monoSortLE notes)

/-- Helper _optimize_track: drop noise, clamp pitch, level velocity, quantize,
optionally merge, optionally reduce to one voice (re-quantizing), and finally
sort by (start, pitch).  The rebuilt Track and NoteEvent objects carry no
ids. -/
def _optimize_track (track : Track) (tempo_bpm : ℚ) (cfg : OptimizeConfig) :
    Track :=
  let step := _step_seconds tempo_bpm cfg.grid_div
  let optimized := track.notes.filterMap (fun ne =>
    if cfg.drop_weak_short_notes && _is_noise ne cfg then none
    else
      let pitch1 := match cfg.min_pitch with
        | none => ne.pitch
        | some m => max ne.pitch m
      let pitch2 := match cfg.max_pitch with
        | none => pitch1
        | some m => min pitch1 m
      let vel := match cfg.velocity_target with
        | none => ne.velocity
        | some v => v
      let out_ne : NoteEvent :=
        { id := none, pitch := pitch2, start := ne.start,
          duration := ne.duration, velocity := vel }
      some (if step > 0 then _quantize_note out_ne cfg step else out_ne))
  let optimized2 :=
    if cfg.merge_same_pitch_overlaps then _merge_same_pitch_overlaps optimized cfg
    else optimized
  let optimized3 :=
    if cfg.make_monophonic then
      let m := _make_monophonic optimized2 cfg
      if step > 0 then m.map (fun n => _quantize_note n cfg step) else m
    else optimized2
  { id := none
    name := track.name
    program := track.program
    channel := track.channel
    notes := pySorted startPitchLE optimized3 }

/-- Function optimize_score: optimize every track; tempo and time signature
pass through. -/
def optimize_score (score : ScoreDoc) (cfg : OptimizeConfig) : ScoreDoc :=
  { version := 1
    tempo_bpm := score.tempo_bpm
    time_signature := score.time_signature
    tracks := score.tracks.map (fun t => _optimize_track t score.tempo_bpm cfg) }

/-! ## routers/generation.py : streaming upload limit -/

/-- Chunk loop of _save_upload_file: the running total grows by each chunk
and is checked against the ceiling before the chunk is written. -/
def _save_upload_loop (limit : ℕ) (total : ℕ) : List ℕ → Except ℕ ℕ
  | [] => .ok total
  | c :: rest =>
    let t := total + c
    if t > limit then .error 413 else _save_upload_loop limit t rest

/-- Async helper _save_upload_file, abstracted over the sequence of chunk
sizes the upload reader yields.  Returns the request outcome (HTTP error
status or total bytes written) and whether the destination file is still on
disk: the ceiling is max_mb mebibytes, and a chunk pushing the running total
past it raises HTTPException 413, upon which the except branch unlinks the
partial file. -/
def _save_upload_file (chunks : List ℕ) (max_mb : ℕ) : Except ℕ ℕ × Bool :=
  match _save_upload_loop (max_mb * 1024 * 1024) 0 chunks with
  | .ok t => (.ok t, true)
  | .error e => (.error e, false)

/-! ## routers/export.py : flattened export -/

/-- Flattened note shape of the export body. -/
structure FlatNote where
  pitch : Option ℤ
  startSec : Option ℚ
  durationSec : Option ℚ
  velocity : Option ℤ
deriving DecidableEq, Repr

/-- Flattened track shape of the export body. -/
structure FlatTrack where
  trackId : Option String
  notes : List FlatNote
deriving DecidableEq, Repr

/-- Flattened project shape of the export body. -/
structure FlatProject where
  bpm : Option ℚ
  tracks : List FlatTrack
deriving DecidableEq, Repr

/-- Effectful map over a list in the Except monad, used by the modelled
flattened conversion. -/
def mapExcept {α β : Type} (f : α → Except String β) : List α → Except String (List β)
  | [] => .ok []
  | a :: rest => do
    let b ← f a
    let bs ← mapExcept f rest
    return b :: bs

/-- Modelled from the spec: conversion of one flattened note.  Every note
must carry pitch, startSec and durationSec; velocity defaults to 64. -/
def flatNoteToNote (fn : FlatNote) : Except String NoteEvent :=
  match fn.pitch, fn.startSec, fn.durationSec with
  | some p, some s, some d =>
    .ok { id := none, pitch := p, start := s, duration := d,
          velocity := fn.velocity.getD 64 }
  | none, _, _ => .error "note missing pitch"
  | _, none, _ => .error "note missing startSec"
  | _, _, none => .error "note missing durationSec"

/-- Modelled from the spec: conversion of one flattened track; the track name
comes from trackId (with the model default Track when absent). -/
def flatTrackToTrack (ft : FlatTrack) : Except String Track := do
  let notes ← mapExcept flatNoteToNote ft.notes
  return { id := ft.trackId, name := some (.inl (ft.trackId.getD "Track")),
           program := none, channel := none, notes := notes }

/-- Modelled from the spec: flattened_to_score_doc is imported by
routers/export.py from core/score_convert.py and exercised by the unit
tests, but its definition is absent from the source tree.  Modelled from
§4.5 (Flattened → Score): bpm must be present and positive, every note must
carry pitch, startSec and durationSec, velocity defaults to 64, the time
signature defaults to 4/4, and the result must be a valid ScoreDoc. -/
def flattened_to_score_doc (f : FlatProject) : Except String ScoreDoc :=
  match f.bpm with
  | none => .error "bpm is required"
  | some bpm =>
    if bpm ≤ 0 then .error "bpm must be > 0"
    else do
      let tracks ← mapExcept flatTrackToTrack f.tracks
      let doc : ScoreDoc :=
        { version := 1, tempo_bpm := bpm, time_signature := "4/4",
          tracks := tracks }
      if doc.validB then return doc else .error "invalid score"

/-- Status code of POST /export/midi (routers/export.py): 400 on an
unparsable body (modelled as none) or a converter ValueError, 500 when the
external MIDI writer fails (writer_ok abstracts the music21 call), 200
otherwise. -/
def export_midi_status (writer_ok : Bool) (body : Option FlatProject) : ℕ :=
  match body with
  | none => 400
  | some f =>
    match flattened_to_score_doc f with
    | .error _ => 400
    | .ok _ => if writer_ok then 200 else 500

/-! ## Supporting lemmas -/

theorem ArtifactMap.get_set_same (m : ArtifactMap) (ft : FileType) (p : String) :
    (m.set ft p).get ft = some p := by
  cases ft <;> rfl

theorem ArtifactMap.get_set_other (m : ArtifactMap) {ft k : FileType}
    (p : String) (h : k ≠ ft) : (m.set ft p).get k = m.get k := by
  cases ft <;> cases k <;> simp_all [ArtifactMap.set, ArtifactMap.get]

theorem _save_upload_loop_eq (limit : ℕ) :
    ∀ (chunks : List ℕ) (total : ℕ), total ≤ limit →
      _save_upload_loop limit total chunks =
        if total + chunks.sum ≤ limit then .ok (total + chunks.sum)
        else .error 413 := by
  intro chunks
  induction chunks with
  | nil =>
    intro total htot
    simp [_save_upload_loop, htot]
  | cons c rest ih =>
    intro total htot
    simp only [_save_upload_loop, List.sum_cons]
    by_cases hc : total + c > limit
    · rw [if_pos hc, if_neg (by omega)]
    · rw [if_neg hc, ih (total + c) (by omega), Nat.add_assoc]

/-! ## Claim theorems -/

/-- C6: an upload whose cumulative byte count equals the ceiling of
MAX_UPLOAD_SIZE_MB mebibytes succeeds with the file kept on disk, while one
whose cumulative byte count exceeds the ceiling by at least one byte fails
with HTTP 413 and the partially written upload file is deleted. -/
theorem C6_upload_limit (chunks : List ℕ) (max_mb : ℕ) :
    (chunks.sum = max_mb * 1024 * 1024 →
      _save_upload_file chunks max_mb = (.ok (max_mb * 1024 * 1024), true)) ∧
    (chunks.sum > max_mb * 1024 * 1024 →
      _save_upload_file chunks max_mb = (.error 413, false)) := by
  have hloop := _save_upload_loop_eq (max_mb * 1024 * 1024) chunks 0 (Nat.zero_le _)
  constructor
  · intro h
    unfold _save_upload_file
    rw [hloop, if_pos (by omega), Nat.zero_add, h]
  · intro h
    unfold _save_upload_file
    rw [hloop, if_neg (by omega)]

theorem C6_upload_limit_witness :
    ([1048576].sum = 1 * 1024 * 1024 ∧
      _save_upload_file [1048576] 1 = (.ok (1 * 1024 * 1024), true)) ∧
    ([1048576, 1].sum > 1 * 1024 * 1024 ∧
      _save_upload_file [1048576, 1] 1 = (.error 413, false)) :=
  ⟨⟨by decide, (C6_upload_limit [1048576] 1).1 (by decide)⟩,
   ⟨by decide, (C6_upload_limit [1048576, 1] 1).2 (by decide)⟩⟩

/-- C5: for a stored record, update_progress with progress outside [0,1]
fails with OutOfRange (leaving the record untouched: the operation returns an
error and no new record), on a finalized record with in-range progress it
fails with AlreadyFinal, and otherwise (including progress 0) it succeeds,
promoting a queued record to running. -/
theorem C5_update_progress (rec : TaskRecord) (p : ℚ) (stage : Option Stage)
    (now : ℕ) :
    (¬ (0 ≤ p ∧ p ≤ 1) →
      update_progress rec p stage now = .error .outOfRange) ∧
    ((0 ≤ p ∧ p ≤ 1) → _is_finalized rec.status = true →
      update_progress rec p stage now = .error .alreadyFinal) ∧
    ((0 ≤ p ∧ p ≤ 1) → _is_finalized rec.status = false →
      update_progress rec p stage now = .ok { rec with
        status := if rec.status = TaskStatus.queued then .running
                  else rec.status
        progress := p
        stage := stage.getD rec.stage
        updated_at := now }) ∧
    ((0 ≤ p ∧ p ≤ 1) → rec.status = TaskStatus.queued →
      ∃ r', update_progress rec p stage now = .ok r' ∧
        r'.status = TaskStatus.running ∧ r'.progress = p) := by
  refine ⟨fun h => ?_, fun hp hf => ?_, fun hp hf => ?_, fun hp hq => ?_⟩
  · unfold update_progress
    rw [if_pos h]
  · unfold update_progress
    rw [if_neg (not_not_intro hp), if_pos (by simpa using hf)]
  · unfold update_progress
    rw [if_neg (not_not_intro hp), if_neg (by simp [hf])]
  · have hf : _is_finalized rec.status = false := by
      rw [hq]; rfl
    refine ⟨{ rec with
        status := if rec.status = TaskStatus.queued then .running
                  else rec.status
        progress := p
        stage := stage.getD rec.stage
        updated_at := now }, ?_, by simp [hq], rfl⟩
    unfold update_progress
    rw [if_neg (not_not_intro hp), if_neg (by simp [hf])]

theorem C5_update_progress_witness :
    ((0:ℚ) ≤ 0 ∧ (0:ℚ) ≤ 1) ∧
    (create_task "t1" Stage.preprocessing 0).status = TaskStatus.queued ∧
    (∃ r', update_progress (create_task "t1" Stage.preprocessing 0) 0 none 1
        = .ok r' ∧ r'.status = TaskStatus.running ∧ r'.progress = 0) :=
  ⟨⟨le_refl 0, by norm_num⟩, rfl,
    (C5_update_progress (create_task "t1" Stage.preprocessing 0) 0 none 1).2.2.2
      ⟨le_refl 0, by norm_num⟩ rfl⟩

/-- C10: on a completed record, attach_artifact with an existing file changes
only the artifact binding of the given kind and the updated_at timestamp;
status, progress, stage, result and error (hence result.filename and
result.output_format, which keep describing the original completion
artifact) are unchanged, and the other kind's binding is untouched. -/
theorem C10_attach_artifact_frame (fs : Fs) (rec : TaskRecord) (path : String)
    (ft : FileType) (now : ℕ)
    (hc : rec.status = TaskStatus.completed)
    (hex : fs.pathExists (fs.resolve path) = true) :
    ∃ r', attach_artifact fs rec path ft now = .ok r' ∧
      r'.status = rec.status ∧ r'.progress = rec.progress ∧
      r'.stage = rec.stage ∧ r'.result = rec.result ∧ r'.error = rec.error ∧
      r'.created_at = rec.created_at ∧ r'.task_id = rec.task_id ∧
      r'.updated_at = now ∧
      r'.artifact_paths.get ft = some (fs.resolve path) ∧
      (∀ k : FileType, k ≠ ft →
        r'.artifact_paths.get k = rec.artifact_paths.get k) := by
  refine ⟨{ rec with
      artifact_paths := rec.artifact_paths.set ft (fs.resolve path)
      updated_at := now }, ?_, rfl, rfl, rfl, rfl, rfl, rfl, rfl, rfl,
    ArtifactMap.get_set_same _ _ _,
    fun k hk => ArtifactMap.get_set_other _ _ hk⟩
  unfold attach_artifact
  rw [if_neg (not_not_intro (by simpa using hex)), if_neg (by simp [hc])]

/-- Filesystem with identity resolution on which every path exists. -/
def fsAll : Fs := ⟨fun s => s, fun _ => true⟩

/-- Sample completed-audio result. -/
def sampleResult : TaskResult :=
  ⟨.audio, .mp3, "a.mp3", "/tasks/t/download?file_type=audio"⟩

/-- Sample completed record. -/
def sampleCompleted : TaskRecord :=
  { task_id := "t", status := .completed, progress := 1,
    stage := .finalizing, created_at := 0, updated_at := 0,
    result := some sampleResult, error := none,
    artifact_paths := ⟨some "/a.mp3", none⟩ }

theorem C10_attach_artifact_frame_witness :
    sampleCompleted.status = TaskStatus.completed ∧
    fsAll.pathExists (fsAll.resolve "/b.wav") = true ∧
    (∃ r', attach_artifact fsAll sampleCompleted "/b.wav" FileType.audio 5
        = .ok r' ∧
      r'.status = sampleCompleted.status ∧
      r'.progress = sampleCompleted.progress ∧
      r'.stage = sampleCompleted.stage ∧
      r'.result = sampleCompleted.result ∧
      r'.error = sampleCompleted.error ∧
      r'.created_at = sampleCompleted.created_at ∧
      r'.task_id = sampleCompleted.task_id ∧
      r'.updated_at = 5 ∧
      r'.artifact_paths.get FileType.audio = some (fsAll.resolve "/b.wav") ∧
      (∀ k : FileType, k ≠ FileType.audio →
        r'.artifact_paths.get k = sampleCompleted.artifact_paths.get k)) :=
  ⟨rfl, rfl,
    C10_attach_artifact_frame fsAll sampleCompleted "/b.wav" FileType.audio 5
      rfl rfl⟩

theorem get_task_info_ok {rec : TaskRecord} (hinv : RecordInv rec) :
    get_task_info rec = .ok
      { task_id := rec.task_id, status := rec.status,
        progress := rec.progress, stage := rec.stage,
        created_at := rec.created_at, updated_at := rec.updated_at,
        result := rec.result, error := rec.error } := by
  obtain ⟨h0, h1, hres, herr, hcase⟩ := hinv
  unfold get_task_info TaskInfoResponse.validate
  rw [if_neg (not_not_intro ⟨h0, h1⟩)]
  rw [if_neg (not_not_intro (by simpa using hres))]
  rw [if_neg (not_not_intro (by simpa using herr))]
  cases hst : rec.status with
  | completed =>
    rw [hst] at hcase
    obtain ⟨hr, he, hp⟩ := hcase
    rw [if_pos rfl, if_neg (by simpa using hr), if_neg (not_not_intro (by simpa using he))]
    have hcl : math_isclose (1:ℚ) 1 (1/1000000000) (1/1000000000) = true := by
      with_unfolding_all decide
    rw [if_neg (not_not_intro (by simpa [hp] using hcl))]
  | failed =>
    rw [hst] at hcase
    obtain ⟨he, hr⟩ := hcase
    rw [if_neg (by simp), if_pos rfl, if_neg (by simpa using he),
      if_neg (not_not_intro (by simpa using hr))]
  | queued =>
    rw [hst] at hcase
    obtain ⟨hr, he⟩ := hcase
    rw [if_neg (by simp), if_neg (by simp),
      if_neg (not_not_intro (by simpa using hr)),
      if_neg (not_not_intro (by simpa using he))]
  | running =>
    rw [hst] at hcase
    obtain ⟨hr, he⟩ := hcase
    rw [if_neg (by simp), if_neg (by simp),
      if_neg (not_not_intro (by simpa using hr)),
      if_neg (not_not_intro (by simpa using he))]

/-- C1: every snapshot the job store produces for a reachable record
validates, and on it status=completed holds iff result is non-null, error is
null and progress equals 1.0 exactly; status=failed implies error non-null
and result null; queued or running implies both null.  Moreover any
TaskInfoResponse with status=completed and progress=0.99 fails validation. -/
theorem C1_snapshot_invariants :
    (∀ rec : TaskRecord, Reachable rec →
      ∃ info : TaskInfoResponse, get_task_info rec = .ok info ∧
        (info.status = TaskStatus.completed ↔
          info.result ≠ none ∧ info.error = none ∧ info.progress = 1) ∧
        (info.status = TaskStatus.failed →
          info.error ≠ none ∧ info.result = none) ∧
        (info.status = TaskStatus.queued ∨ info.status = TaskStatus.running →
          info.result = none ∧ info.error = none)) ∧
    (∀ r : TaskInfoResponse, r.status = TaskStatus.completed →
      r.progress = 99/100 →
      ∃ msg, TaskInfoResponse.validate r = .error msg) := by
  constructor
  · intro rec hreach
    have hinv := reachable_inv hreach
    refine ⟨_, get_task_info_ok hinv, ?_, ?_, ?_⟩
    · obtain ⟨h0, h1, hres, herr, hcase⟩ := hinv
      constructor
      · intro hst
        rw [show (TaskInfoResponse.mk rec.task_id rec.status rec.progress
            rec.stage rec.created_at rec.updated_at rec.result
            rec.error).status = rec.status from rfl] at hst
        rw [hst] at hcase
        exact ⟨hcase.1, hcase.2.1, hcase.2.2⟩
      · intro ⟨hr, he, hp⟩
        cases hst : rec.status with
        | completed => rfl
        | failed => rw [hst] at hcase; exact absurd hcase.2 hr
        | queued => rw [hst] at hcase; exact absurd hcase.1 hr
        | running => rw [hst] at hcase; exact absurd hcase.1 hr
    · intro hst
      obtain ⟨h0, h1, hres, herr, hcase⟩ := hinv
      rw [show (TaskInfoResponse.mk rec.task_id rec.status rec.progress
          rec.stage rec.created_at rec.updated_at rec.result
          rec.error).status = rec.status from rfl] at hst
      rw [hst] at hcase
      exact hcase
    · intro hst
      obtain ⟨h0, h1, hres, herr, hcase⟩ := hinv
      rw [show (TaskInfoResponse.mk rec.task_id rec.status rec.progress
          rec.stage rec.created_at rec.updated_at rec.result
          rec.error).status = rec.status from rfl] at hst
      rcases hst with hst | hst <;> (rw [hst] at hcase; exact hcase)
  · intro r hst hp
    unfold TaskInfoResponse.validate
    rw [hp, hst]
    by_cases hres : r.result.all TaskResult.validB = true
    · by_cases herr : r.error.all TaskError.validB = true
      · rw [if_neg (not_not_intro (by norm_num))]
        rw [if_neg (not_not_intro (by simpa using hres))]
        rw [if_neg (not_not_intro (by simpa using herr))]
        rw [if_pos rfl]
        by_cases hrn : r.result = none
        · exact ⟨_, by rw [if_pos hrn]⟩
        · rw [if_neg hrn]
          by_cases hen : r.error ≠ none
          · exact ⟨_, by rw [if_pos hen]⟩
          · rw [if_neg hen]
            exact ⟨_, by rw [if_pos (by with_unfolding_all decide)]⟩
      · exact ⟨_, by
          rw [if_neg (not_not_intro (by norm_num)),
            if_neg (not_not_intro (by simpa using hres)),
            if_pos (by simpa using herr)]⟩
    · exact ⟨_, by
        rw [if_neg (not_not_intro (by norm_num)), if_pos (by simpa using hres)]⟩

theorem C1_snapshot_invariants_witness :
    (Reachable (create_task "t0" Stage.preprocessing 0) ∧
      (∃ info : TaskInfoResponse,
        get_task_info (create_task "t0" Stage.preprocessing 0) = .ok info ∧
          (info.status = TaskStatus.completed ↔
            info.result ≠ none ∧ info.error = none ∧ info.progress = 1) ∧
          (info.status = TaskStatus.failed →
            info.error ≠ none ∧ info.result = none) ∧
          (info.status = TaskStatus.queued ∨
              info.status = TaskStatus.running →
            info.result = none ∧ info.error = none))) ∧
    (∃ msg, TaskInfoResponse.validate
        { task_id := "t", status := TaskStatus.completed, progress := 99/100,
          stage := Stage.finalizing, created_at := 0, updated_at := 0,
          result := some sampleResult, error := none } = .error msg) :=
  ⟨⟨Reachable.create "t0" Stage.preprocessing 0,
    (C1_snapshot_invariants.1 (create_task "t0" Stage.preprocessing 0)
      (Reachable.create "t0" Stage.preprocessing 0))⟩,
   C1_snapshot_invariants.2
     { task_id := "t", status := TaskStatus.completed, progress := 99/100,
       stage := Stage.finalizing, created_at := 0, updated_at := 0,
       result := some sampleResult, error := none } rfl rfl⟩

theorem completed_result_eq (tid p : String) (ft : FileType)
    (ofmt : Option OutputFormat) (fname : Option String)
    (hval : (TaskResult.mk ft
        (ofmt.getD (_infer_output_format_from_path p)) (effFilename fname p)
        ("/tasks/" ++ tid ++ "/download?file_type=" ++ ft.value)).validB
        = true) :
    completed_result tid p ft ofmt fname =
      .ok ⟨ft, ofmt.getD (_infer_output_format_from_path p),
        effFilename fname p,
        "/tasks/" ++ tid ++ "/download?file_type=" ++ ft.value⟩ := by
  simp only [completed_result, TaskResult.make]
  rw [if_pos hval]

/-- C2 (amended): mark_completed on a non-finalized record and an artifact
path existing on disk succeeds, provided the built TaskResult validates (the
effective filename is non-empty and the kind/format pair is consistent, an
extra failure mode the claim omits): it sets status=completed, progress=1.0,
stage=finalizing, binds artifacts[file_kind] to the resolved path, builds
result.download_url of the shape /tasks/(id)/download?file_type=(file_kind),
and infers output_format from the path extension when absent, with any
extension outside mp3/wav/mid/midi inferring mp3.  A missing path fails with
FileMissing; a finalized record with an existing path and valid result fails
with AlreadyFinal. -/
theorem C2_mark_completed (fs : Fs) (rec : TaskRecord) (path : String)
    (ft : FileType) (ofmt : Option OutputFormat) (fname : Option String)
    (now : ℕ) :
    (fs.pathExists (fs.resolve path) = false →
      mark_completed fs rec path ft ofmt fname now = .error .fileMissing) ∧
    (fs.pathExists (fs.resolve path) = true →
      (TaskResult.mk ft
        (ofmt.getD (_infer_output_format_from_path (fs.resolve path)))
        (effFilename fname (fs.resolve path))
        ("/tasks/" ++ rec.task_id ++ "/download?file_type=" ++ ft.value)).validB
        = true →
      _is_finalized rec.status = true →
      mark_completed fs rec path ft ofmt fname now = .error .alreadyFinal) ∧
    (fs.pathExists (fs.resolve path) = true →
      (TaskResult.mk ft
        (ofmt.getD (_infer_output_format_from_path (fs.resolve path)))
        (effFilename fname (fs.resolve path))
        ("/tasks/" ++ rec.task_id ++ "/download?file_type=" ++ ft.value)).validB
        = true →
      _is_finalized rec.status = false →
      mark_completed fs rec path ft ofmt fname now = .ok { rec with
        status := .completed
        progress := 1
        stage := Stage.finalizing
        result := some ⟨ft,
          ofmt.getD (_infer_output_format_from_path (fs.resolve path)),
          effFilename fname (fs.resolve path),
          "/tasks/" ++ rec.task_id ++ "/download?file_type=" ++ ft.value⟩
        error := none
        artifact_paths := rec.artifact_paths.set ft (fs.resolve path)
        updated_at := now }) ∧
    (strLower (pathSuffix (fs.resolve path)) ∉
        [".mp3", ".wav", ".mid", ".midi"] →
      _infer_output_format_from_path (fs.resolve path) = .mp3) := by
  refine ⟨fun h => ?_, fun hex hval hfin => ?_, fun hex hval hfin => ?_,
    fun h => ?_⟩
  · unfold mark_completed
    rw [if_pos (by simp [h])]
  · unfold mark_completed
    rw [if_neg (not_not_intro (by simpa using hex)),
      completed_result_eq rec.task_id (fs.resolve path) ft ofmt fname hval]
    simp only
    rw [if_pos (by simpa using hfin)]
  · unfold mark_completed
    rw [if_neg (not_not_intro (by simpa using hex)),
      completed_result_eq rec.task_id (fs.resolve path) ft ofmt fname hval]
    simp only
    rw [if_neg (by simp [hfin])]
  · simp only [List.mem_cons, List.not_mem_nil, or_false, not_or] at h
    obtain ⟨h1, h2, h3, h4⟩ := h
    unfold _infer_output_format_from_path
    rw [if_neg h1, if_neg h2, if_neg (by simp [h3, h4])]

/-- C2 counterexample: on a fresh queued record and the existing path
a.mp3, mark_completed with file_kind=midi and no explicit output_format
infers mp3, fails TaskResult consistency validation, and does not complete
the job, refuting the claim as universally stated (the job is not finalized
and the path exists, yet the call fails with neither AlreadyFinal nor
FileMissing). -/
theorem C2_mark_completed_counterexample :
    _is_finalized (create_task "t2" Stage.preprocessing 0).status = false ∧
    fsAll.pathExists (fsAll.resolve "/a.mp3") = true ∧
    mark_completed fsAll (create_task "t2" Stage.preprocessing 0) "/a.mp3"
      FileType.midi none none 1 = .error .invalidResult := by
  refine ⟨rfl, rfl, ?_⟩
  with_unfolding_all rfl

theorem C2_mark_completed_witness :
    fsAll.pathExists (fsAll.resolve "/a.mp3") = true ∧
    (TaskResult.mk FileType.audio
      ((none : Option OutputFormat).getD
        (_infer_output_format_from_path (fsAll.resolve "/a.mp3")))
      (effFilename none (fsAll.resolve "/a.mp3"))
      ("/tasks/" ++ (create_task "t2" Stage.preprocessing 0).task_id ++
        "/download?file_type=" ++ FileType.audio.value)).validB = true ∧
    _is_finalized (create_task "t2" Stage.preprocessing 0).status = false ∧
    mark_completed fsAll (create_task "t2" Stage.preprocessing 0) "/a.mp3"
      FileType.audio none none 1
      = .ok { (create_task "t2" Stage.preprocessing 0) with
        status := .completed
        progress := 1
        stage := Stage.finalizing
        result := some ⟨FileType.audio,
          (none : Option OutputFormat).getD
            (_infer_output_format_from_path (fsAll.resolve "/a.mp3")),
          effFilename none (fsAll.resolve "/a.mp3"),
          "/tasks/" ++ (create_task "t2" Stage.preprocessing 0).task_id ++
            "/download?file_type=" ++ FileType.audio.value⟩
        error := none
        artifact_paths := (create_task "t2" Stage.preprocessing
          0).artifact_paths.set FileType.audio (fsAll.resolve "/a.mp3")
        updated_at := 1 } :=
  ⟨rfl, by with_unfolding_all decide, rfl,
    (C2_mark_completed fsAll (create_task "t2" Stage.preprocessing 0)
      "/a.mp3" FileType.audio none none 1).2.2.1 rfl
      (by with_unfolding_all decide) rfl⟩

theorem mapExcept_ok_of_forall {α β : Type} (f : α → Except String β) :
    ∀ l : List α, (∀ a ∈ l, ∃ b, f a = .ok b) →
      ∃ bs, mapExcept f l = .ok bs ∧
        List.Forall₂ (fun a b => f a = .ok b) l bs := by
  intro l
  induction l with
  | nil => exact fun _ => ⟨[], rfl, List.Forall₂.nil⟩
  | cons a rest ih =>
    intro h
    obtain ⟨b, hb⟩ := h a (by simp)
    obtain ⟨bs, hbs, hf⟩ := ih (fun x hx => h x (by simp [hx]))
    refine ⟨b :: bs, ?_, List.Forall₂.cons hb hf⟩
    show mapExcept f (a :: rest) = .ok (b :: bs)
    simp only [mapExcept]
    rw [hb, hbs]
    rfl

theorem flatNoteToNote_ok {fn : FlatNote} {n : NoteEvent}
    (h : flatNoteToNote fn = .ok n) :
    fn.pitch = some n.pitch ∧ fn.startSec = some n.start ∧
    fn.durationSec = some n.duration ∧ n.velocity = fn.velocity.getD 64 ∧
    n.id = none := by
  unfold flatNoteToNote at h
  rcases hp : fn.pitch with _ | p <;>
    rcases hs : fn.startSec with _ | s <;>
      rcases hd : fn.durationSec with _ | d <;>
        rw [hp, hs, hd] at h
  all_goals try exact Except.noConfusion h
  simp only [Except.ok.injEq] at h
  subst h
  simp [hp, hs, hd]

theorem flatTrackToTrack_ok {ftr : FlatTrack} {tr : Track}
    (h : flatTrackToTrack ftr = .ok tr) :
    tr.id = ftr.trackId ∧
    tr.name = some (.inl (ftr.trackId.getD "Track")) ∧
    tr.program = none ∧ tr.channel = none ∧
    mapExcept flatNoteToNote ftr.notes = .ok tr.notes := by
  unfold flatTrackToTrack at h
  cases hm : mapExcept flatNoteToNote ftr.notes with
  | error e =>
    rw [hm] at h
    exact absurd (show (Except.error e : Except String Track) = .ok tr from h)
      (by simp)
  | ok ns =>
    rw [hm] at h
    replace h : (Except.ok (Track.mk ftr.trackId
        (some (.inl (ftr.trackId.getD "Track"))) none none ns) :
        Except String Track) = .ok tr := h
    simp only [Except.ok.injEq] at h
    subst h
    simp [hm]

theorem mapExcept_ok_forall₂ {α β : Type} (f : α → Except String β) :
    ∀ (l : List α) (bs : List β), mapExcept f l = .ok bs →
      List.Forall₂ (fun a b => f a = .ok b) l bs := by
  intro l
  induction l with
  | nil =>
    intro bs h
    simp only [mapExcept, Except.ok.injEq] at h
    subst h
    exact .nil
  | cons a rest ih =>
    intro bs h
    simp only [mapExcept] at h
    cases hfa : f a with
    | error e =>
      rw [hfa] at h
      exact absurd (show (Except.error e : Except String (List β)) = .ok bs from h)
        (by simp)
    | ok b =>
      rw [hfa] at h
      cases hrest : mapExcept f rest with
      | error e =>
        rw [hrest] at h
        exact absurd
          (show (Except.error e : Except String (List β)) = .ok bs from h)
          (by simp)
      | ok bs2 =>
        rw [hrest] at h
        replace h : (Except.ok (b :: bs2) : Except String (List β)) = .ok bs := h
        simp only [Except.ok.injEq] at h
        subst h
        exact .cons hfa (ih bs2 hrest)

theorem all_of_forall₂ {α β : Type} {R : α → β → Prop} {p : β → Bool} :
    ∀ {l : List α} {bs : List β}, List.Forall₂ R l bs →
      (∀ a b, a ∈ l → R a b → p b = true) → bs.all p = true := by
  intro l bs h
  induction h with
  | nil => intro _; rfl
  | cons hr hrest ih =>
    rename_i a b l2 bs2
    intro hp
    simp only [List.all_cons, Bool.and_eq_true]
    exact ⟨hp a b (by simp) hr,
      ih (fun x y hx hxy => hp x y (by simp [hx]) hxy)⟩

/-- C7: every flattened input with bpm > 0 whose notes all carry pitch,
startSec and durationSec (with values inside the Score domain: pitch 0-127,
start ≥ 0, duration > 0, velocity 1-127 when present) converts to a valid
Score, with velocity defaulting to 64 and time signature defaulting to 4/4;
POST /export/midi on such a body returns 200 (given the external MIDI
writer succeeds), and returns 400 on malformed input (an unparsable body or
a converter error). -/
theorem C7_flattened_export (f : FlatProject) (b : ℚ)
    (hb : f.bpm = some b) (hb0 : 0 < b)
    (hnotes : ∀ ftr ∈ f.tracks, ∀ fn ∈ ftr.notes,
      (∃ p, fn.pitch = some p ∧ 0 ≤ p ∧ p ≤ 127) ∧
      (∃ s, fn.startSec = some s ∧ 0 ≤ s) ∧
      (∃ d, fn.durationSec = some d ∧ 0 < d) ∧
      (∀ v, fn.velocity = some v → 1 ≤ v ∧ v ≤ 127)) :
    (∃ doc : ScoreDoc, flattened_to_score_doc f = .ok doc ∧
      doc.validB = true ∧ doc.tempo_bpm = b ∧
      doc.time_signature = "4/4" ∧ doc.version = 1 ∧
      List.Forall₂ (fun (ftr : FlatTrack) (tr : Track) =>
        tr.name = some (.inl (ftr.trackId.getD "Track")) ∧
        List.Forall₂ (fun (fn : FlatNote) (n : NoteEvent) =>
          fn.pitch = some n.pitch ∧ fn.startSec = some n.start ∧
          fn.durationSec = some n.duration ∧
          n.velocity = fn.velocity.getD 64) ftr.notes tr.notes)
        f.tracks doc.tracks ∧
      export_midi_status true (some f) = 200) ∧
    (∀ g : FlatProject, ∀ e, flattened_to_score_doc g = .error e →
      export_midi_status true (some g) = 400) ∧
    export_midi_status true none = 400 := by
  refine ⟨?_, fun g e hg => by simp [export_midi_status, hg], rfl⟩
  have hnote_ok : ∀ ftr ∈ f.tracks, ∀ fn ∈ ftr.notes,
      ∃ n, flatNoteToNote fn = .ok n := by
    intro ftr hftr fn hfn
    obtain ⟨⟨p, hp, _⟩, ⟨s, hs, _⟩, ⟨d, hd, _⟩, _⟩ := hnotes ftr hftr fn hfn
    refine ⟨NoteEvent.mk none p s d (fn.velocity.getD 64), ?_⟩
    unfold flatNoteToNote
    rw [hp, hs, hd]
  have hnote_valid : ∀ ftr ∈ f.tracks, ∀ fn ∈ ftr.notes, ∀ n : NoteEvent,
      flatNoteToNote fn = .ok n → NoteEvent.validB n = true := by
    intro ftr hftr fn hfn n hok
    obtain ⟨hp, hs, hd, hv, _⟩ := flatNoteToNote_ok hok
    obtain ⟨⟨p, hp2, hp3, hp4⟩, ⟨s, hs2, hs3⟩, ⟨d, hd2, hd3⟩, hv2⟩ :=
      hnotes ftr hftr fn hfn
    rw [hp] at hp2
    rw [hs] at hs2
    rw [hd] at hd2
    have hpe : n.pitch = p := by injection hp2
    have hse : n.start = s := by injection hs2
    have hde : n.duration = d := by injection hd2
    have hvel : 1 ≤ n.velocity ∧ n.velocity ≤ 127 := by
      cases hfv : fn.velocity with
      | none => rw [hv, hfv]; exact ⟨by norm_num, by norm_num⟩
      | some v =>
        have := hv2 v hfv
        rw [hv, hfv]
        simpa using this
    simp only [NoteEvent.validB, Bool.and_eq_true, decide_eq_true_eq]
    subst hpe
    subst hse
    subst hde
    exact ⟨⟨⟨⟨⟨hp3, hp4⟩, hs3⟩, hd3⟩, hvel.1⟩, hvel.2⟩
  have htracks : ∀ ftr ∈ f.tracks, ∃ tr, flatTrackToTrack ftr = .ok tr := by
    intro ftr hftr
    obtain ⟨ns, hns2, _⟩ := mapExcept_ok_of_forall flatNoteToNote ftr.notes
      (hnote_ok ftr hftr)
    refine ⟨Track.mk ftr.trackId (some (.inl (ftr.trackId.getD "Track")))
      none none ns, ?_⟩
    unfold flatTrackToTrack
    rw [hns2]
    rfl
  obtain ⟨trs, htrs, hftrs⟩ :=
    mapExcept_ok_of_forall flatTrackToTrack f.tracks htracks
  have hmatch : List.Forall₂ (fun (ftr : FlatTrack) (tr : Track) =>
      tr.name = some (.inl (ftr.trackId.getD "Track")) ∧
      List.Forall₂ (fun (fn : FlatNote) (n : NoteEvent) =>
        fn.pitch = some n.pitch ∧ fn.startSec = some n.start ∧
        fn.durationSec = some n.duration ∧
        n.velocity = fn.velocity.getD 64) ftr.notes tr.notes)
      f.tracks trs := by
    refine List.Forall₂.imp ?_ hftrs
    intro ftr tr htr
    obtain ⟨_, hname, _, _, hnotes2⟩ := flatTrackToTrack_ok htr
    refine ⟨hname, ?_⟩
    refine List.Forall₂.imp ?_ (mapExcept_ok_forall₂ flatNoteToNote ftr.notes tr.notes hnotes2)
    intro fn n hok
    obtain ⟨h1, h2, h3, h4, _⟩ := flatNoteToNote_ok hok
    exact ⟨h1, h2, h3, h4⟩
  have htr_valid : trs.all Track.validB = true := by
    refine all_of_forall₂ hftrs ?_
    intro ftr tr hmem htr
    obtain ⟨_, _, hprog, hchan, hnotes2⟩ := flatTrackToTrack_ok htr
    have hall : tr.notes.all NoteEvent.validB = true := by
      refine all_of_forall₂
        (mapExcept_ok_forall₂ flatNoteToNote ftr.notes tr.notes hnotes2) ?_
      intro fn n hfn hok
      exact hnote_valid ftr hmem fn hfn n hok
    simp [Track.validB, hprog, hchan, hall]
  have hdocval : (ScoreDoc.mk 1 b "4/4" trs).validB = true := by
    simp [ScoreDoc.validB, hb0, htr_valid]
  have hdoc : flattened_to_score_doc f = .ok (ScoreDoc.mk 1 b "4/4" trs) := by
    unfold flattened_to_score_doc
    rw [hb]
    show (if b ≤ 0 then (Except.error "bpm must be > 0" : Except String ScoreDoc)
        else do
          let tracks ← mapExcept flatTrackToTrack f.tracks
          let doc : ScoreDoc := ScoreDoc.mk 1 b "4/4" tracks
          if doc.validB = true then pure doc else Except.error "invalid score")
        = .ok (ScoreDoc.mk 1 b "4/4" trs)
    rw [if_neg (not_le.mpr hb0), htrs]
    show (if (ScoreDoc.mk 1 b "4/4" trs).validB = true then
        (pure (ScoreDoc.mk 1 b "4/4" trs) : Except String ScoreDoc)
        else Except.error "invalid score") = .ok (ScoreDoc.mk 1 b "4/4" trs)
    rw [if_pos hdocval]
    rfl
  exact ⟨ScoreDoc.mk 1 b "4/4" trs, hdoc, hdocval, rfl, rfl, rfl, hmatch,
    by simp [export_midi_status, hdoc]⟩

/-- Flattened payload of the literal export scenario in the spec. -/
def f7 : FlatProject :=
  ⟨some 120, [⟨some "tr1", [⟨some 60, some 0, some (1/2), some 80⟩,
    ⟨some 64, some (1/2), some (1/2), none⟩]⟩]⟩

theorem C7_flattened_export_witness :
    f7.bpm = some 120 ∧ (0:ℚ) < 120 ∧
    (∀ ftr ∈ f7.tracks, ∀ fn ∈ ftr.notes,
      (∃ p, fn.pitch = some p ∧ 0 ≤ p ∧ p ≤ 127) ∧
      (∃ s, fn.startSec = some s ∧ 0 ≤ s) ∧
      (∃ d, fn.durationSec = some d ∧ 0 < d) ∧
      (∀ v, fn.velocity = some v → 1 ≤ v ∧ v ≤ 127)) ∧
    ((∃ doc : ScoreDoc, flattened_to_score_doc f7 = .ok doc ∧
      doc.validB = true ∧ doc.tempo_bpm = 120 ∧
      doc.time_signature = "4/4" ∧ doc.version = 1 ∧
      List.Forall₂ (fun (ftr : FlatTrack) (tr : Track) =>
        tr.name = some (.inl (ftr.trackId.getD "Track")) ∧
        List.Forall₂ (fun (fn : FlatNote) (n : NoteEvent) =>
          fn.pitch = some n.pitch ∧ fn.startSec = some n.start ∧
          fn.durationSec = some n.duration ∧
          n.velocity = fn.velocity.getD 64) ftr.notes tr.notes)
        f7.tracks doc.tracks ∧
      export_midi_status true (some f7) = 200) ∧
    (∀ g : FlatProject, ∀ e, flattened_to_score_doc g = .error e →
      export_midi_status true (some g) = 400) ∧
    export_midi_status true none = 400) := by
  have hnotes : ∀ ftr ∈ f7.tracks, ∀ fn ∈ ftr.notes,
      (∃ p, fn.pitch = some p ∧ 0 ≤ p ∧ p ≤ 127) ∧
      (∃ s, fn.startSec = some s ∧ 0 ≤ s) ∧
      (∃ d, fn.durationSec = some d ∧ 0 < d) ∧
      (∀ v, fn.velocity = some v → 1 ≤ v ∧ v ≤ 127) := by
    intro ftr hftr fn hfn
    simp only [f7, List.mem_singleton] at hftr
    subst hftr
    simp only [List.mem_cons, List.not_mem_nil, or_false] at hfn
    rcases hfn with rfl | rfl
    · exact ⟨⟨60, rfl, by norm_num, by norm_num⟩, ⟨0, rfl, le_refl 0⟩,
        ⟨1/2, rfl, by norm_num⟩,
        fun v hv => by
          have hv2 : (80:ℤ) = v := by injection hv
          subst hv2
          exact ⟨by norm_num, by norm_num⟩⟩
    · exact ⟨⟨64, rfl, by norm_num, by norm_num⟩, ⟨1/2, rfl, by norm_num⟩,
        ⟨1/2, rfl, by norm_num⟩,
        fun v hv => absurd hv (by simp)⟩
  exact ⟨rfl, by norm_num, hnotes,
    C7_flattened_export f7 120 rfl (by norm_num) hnotes⟩

theorem normalizeTrack_name (sha1_hex : String → String) (rd : ℕ) (ei : Bool)
    (ti : ℕ) (tr : Track) :
    (normalizeTrack sha1_hex rd ei ti tr).name =
      some (.inl (match tr.name with
        | none => "Track" ++ toString ti
        | some v => pyStrName v)) := by
  rcases h : tr.name with _ | v <;> simp [normalizeTrack, h]

/-- C9 (amended): normalization coerces every track name to a string: a
missing (None) name at track index i becomes the fallback "Track" followed
by i (not "Trackk" followed by i as claimed), and a present str-or-int name
becomes str of it. -/
theorem C9_track_name (sha1_hex : String → String) (doc : ScoreDoc)
    (hdoc : doc.validB = true) :
    ∃ out, normalize_score sha1_hex doc 6 true = .ok out ∧
      out.tracks.length = doc.tracks.length ∧
      ∀ (ti : ℕ) (tr : Track), doc.tracks[ti]? = some tr →
        ∃ tr', out.tracks[ti]? = some tr' ∧
          tr'.name = some (.inl (match tr.name with
            | none => "Track" ++ toString ti
            | some v => pyStrName v)) := by
  unfold normalize_score
  rw [if_neg (not_not_intro (by simpa using hdoc))]
  refine ⟨_, rfl, by simp, ?_⟩
  intro ti tr htr
  refine ⟨normalizeTrack sha1_hex 6 true ti tr, ?_,
    normalizeTrack_name sha1_hex 6 true ti tr⟩
  simp only [List.getElem?_map, List.getElem?_enum, htr, Option.map_some]
  rfl

/-- Constant stand-in hash for closed counterexamples; the divergences shown
with it are independent of the hash values. -/
def hashConst : String → String := fun _ => ""

/-- One-track score whose track has no name. -/
def d9 : ScoreDoc := ⟨1, 120, "4/4", [⟨none, none, none, none, []⟩]⟩

/-- C9 counterexample: normalizing a score whose single track has a missing
name yields the track name Track0, which is not the claimed fallback
Trackk0. -/
theorem C9_track_name_counterexample :
    (normalize_score hashConst d9 6 true).map
        (fun out => out.tracks.map Track.name)
      = .ok [some (.inl "Track0")] ∧
    (some (Sum.inl "Track0") : Option (String ⊕ ℤ)) ≠ some (.inl "Trackk0") := by
  constructor
  · with_unfolding_all rfl
  · decide

/-- Sort key (start, -velocity) that the claim prescribes for the
monophonic reduction. -/
def monoClaimLE (a b : NoteEvent) : Bool :=
  qlexk [a.start, -(a.velocity : ℚ)] [b.start, -(b.velocity : ℚ)] true

/-- Monophonic reduction as the claim words it: a last_end cursor over the
(start, -velocity)-sorted notes; a note lying entirely within [0, last_end]
is dropped; a note starting before last_end has its start pulled up to
last_end and its duration shortened by the overlap; the cursor advances to
each kept note's end.  Written for comparison with the code's
_make_monophonic. -/
def _mono_claimed_loop : ℚ → List NoteEvent → List NoteEvent
  | _, [] => []
  | last_end, ne :: rest =>
    let ne_end := ne.start + ne.duration
    if ne_end ≤ last_end then _mono_claimed_loop last_end rest
    else if ne.start < last_end then
      { ne with start := last_end, duration := ne_end - last_end } ::
        _mono_claimed_loop ne_end rest
    else ne :: _mono_claimed_loop ne_end rest

/-- Claimed monophonic reduction over a note list. -/
def _mono_claimed (notes : List NoteEvent) : List NoteEvent :=
  _mono_claimed_loop 0 (pySorted monoClaimLE notes)

/-- Cursor step of the amended description of _make_monophonic.  The state
is (closed notes, open note): a noise note is always dropped; a note
starting at or after the open note's end minus eps closes it and opens the
new note; an overlapping non-noise note either trims the open note to end at
its start and replaces it (when it lasts at least
monophonic_min_switch_duration and is either sufficiently stronger by
velocity times duration or starts late enough into the open note), or is
dropped, or - when delaying is enabled - is itself delayed to start at the
open note's end with unchanged duration. -/
def _mono_cursor_step (cfg : OptimizeConfig)
    (st : List NoteEvent × Option NoteEvent) (ne : NoteEvent) :
    List NoteEvent × Option NoteEvent :=
  if cfg.drop_weak_short_notes && _is_noise ne cfg then st
  else
    match st.2 with
    | none => (st.1, some ne)
    | some prev =>
      let prev_end := prev.start + prev.duration
      if ne.start ≥ prev_end - cfg.eps then (st.1 ++ [prev], some ne)
      else if _is_noise ne cfg then st
      else
        let prev_strength := (prev.velocity : ℚ) * prev.duration
        let ne_strength := (ne.velocity : ℚ) * ne.duration
        let prev_progress :=
          if prev.duration > cfg.eps then (ne.start - prev.start) / prev.duration
          else 0
        let should_switch :=
          decide (ne.duration ≥ cfg.monophonic_min_switch_duration) &&
          (decide (ne_strength ≥ prev_strength * cfg.monophonic_switch_strength_ratio) ||
           decide (prev_progress ≥ cfg.monophonic_switch_after_frac))
        if should_switch then
          (st.1 ++ [NoteEvent.mk none prev.pitch prev.start
            (max cfg.eps (ne.start - prev.start)) prev.velocity], some ne)
        else if cfg.monophonic_delay_weak_overlaps then
          (st.1 ++ [prev],
            some (NoteEvent.mk none ne.pitch prev_end ne.duration ne.velocity))
        else st

/-- Cursor formulation of the monophonic reduction. -/
def _make_monophonic_cursor (notes : List NoteEvent) (cfg : OptimizeConfig) :
    List NoteEvent :=
  if notes = [] then []
  else
    match (pySorted monoSortLE notes).foldl (_mono_cursor_step cfg) ([], none) with
    | (done, none) => done
    | (done, some last) => done ++ [last]

theorem _mono_loop_cons (cfg : OptimizeConfig) (out : List NoteEvent)
    (ne : NoteEvent) (rest : List NoteEvent) :
    _mono_loop cfg out (ne :: rest) =
      if (cfg.drop_weak_short_notes && _is_noise ne cfg) = true then
        _mono_loop cfg out rest
      else
        match out.getLast? with
        | none => _mono_loop cfg (out ++ [ne]) rest
        | some prev =>
          let prev_end := prev.start + prev.duration
          if ne.start ≥ prev_end - cfg.eps then _mono_loop cfg (out ++ [ne]) rest
          else if _is_noise ne cfg then _mono_loop cfg out rest
          else
            let prev_strength := (prev.velocity : ℚ) * prev.duration
            let ne_strength := (ne.velocity : ℚ) * ne.duration
            let prev_progress :=
              if prev.duration > cfg.eps then
                (ne.start - prev.start) / prev.duration
              else 0
            let should_switch :=
              decide (ne.duration ≥ cfg.monophonic_min_switch_duration) &&
              (decide (ne_strength ≥ prev_strength * cfg.monophonic_switch_strength_ratio) ||
               decide (prev_progress ≥ cfg.monophonic_switch_after_frac))
            if should_switch then
              let trimmed := max cfg.eps (ne.start - prev.start)
              let prev2 : NoteEvent :=
                { id := none, pitch := prev.pitch, start := prev.start,
                  duration := trimmed, velocity := prev.velocity }
              _mono_loop cfg (out.dropLast ++ [prev2, ne]) rest
            else if cfg.monophonic_delay_weak_overlaps then
              let shifted : NoteEvent :=
                { id := none, pitch := ne.pitch, start := prev_end,
                  duration := ne.duration, velocity := ne.velocity }
              _mono_loop cfg (out ++ [shifted]) rest
            else _mono_loop cfg out rest := rfl

theorem _mono_cursor_step_eq (cfg : OptimizeConfig)
    (done : List NoteEvent) (cur : Option NoteEvent) (ne : NoteEvent) :
    _mono_cursor_step cfg (done, cur) ne =
      if (cfg.drop_weak_short_notes && _is_noise ne cfg) = true then (done, cur)
      else
        match cur with
        | none => (done, some ne)
        | some prev =>
          let prev_end := prev.start + prev.duration
          if ne.start ≥ prev_end - cfg.eps then (done ++ [prev], some ne)
          else if _is_noise ne cfg then (done, cur)
          else
            let prev_strength := (prev.velocity : ℚ) * prev.duration
            let ne_strength := (ne.velocity : ℚ) * ne.duration
            let prev_progress :=
              if prev.duration > cfg.eps then
                (ne.start - prev.start) / prev.duration
              else 0
            let should_switch :=
              decide (ne.duration ≥ cfg.monophonic_min_switch_duration) &&
              (decide (ne_strength ≥ prev_strength * cfg.monophonic_switch_strength_ratio) ||
               decide (prev_progress ≥ cfg.monophonic_switch_after_frac))
            if should_switch then
              (done ++ [NoteEvent.mk none prev.pitch prev.start
                (max cfg.eps (ne.start - prev.start)) prev.velocity], some ne)
            else if cfg.monophonic_delay_weak_overlaps then
              (done ++ [prev],
                some (NoteEvent.mk none ne.pitch prev_end ne.duration
                  ne.velocity))
            else (done, cur) := by
  unfold _mono_cursor_step
  cases cur <;> rfl

theorem _mono_loop_cursor_eq (cfg : OptimizeConfig) :
    ∀ (items done : List NoteEvent) (cur : Option NoteEvent),
      (cur = none → done = []) →
      _mono_loop cfg (done ++ cur.toList) items =
        (match items.foldl (_mono_cursor_step cfg) (done, cur) with
         | (d, none) => d
         | (d, some c) => d ++ [c]) := by
  intro items
  induction items with
  | nil =>
    intro done cur hinv
    cases cur with
    | none => simp [_mono_loop, hinv rfl]
    | some c => simp [_mono_loop]
  | cons ne rest ih =>
    intro done cur hinv
    simp only [List.foldl_cons]
    rw [_mono_loop_cons, _mono_cursor_step_eq]
    by_cases hnoise : (cfg.drop_weak_short_notes && _is_noise ne cfg) = true
    · simp only [if_pos hnoise]
      exact ih done cur hinv
    · simp only [if_neg hnoise]
      cases cur with
      | none =>
        have hd := hinv rfl
        subst hd
        simp only [Option.toList_none, List.append_nil, List.getLast?_nil,
          List.nil_append]
        exact ih [] (some ne) (by intro h; cases h)
      | some prev =>
        simp only [Option.toList_some, List.getLast?_concat]
        by_cases happ : ne.start ≥ prev.start + prev.duration - cfg.eps
        · simp only [if_pos happ]
          have := ih (done ++ [prev]) (some ne) (by intro h; cases h)
          simpa using this
        · simp only [if_neg happ]
          by_cases hnoise2 : _is_noise ne cfg = true
          · simp only [if_pos hnoise2]
            exact ih done (some prev) (by intro h; cases h)
          · simp only [if_neg hnoise2]
            by_cases hsw : (decide (ne.duration ≥ cfg.monophonic_min_switch_duration) &&
                (decide ((ne.velocity : ℚ) * ne.duration ≥
                  (prev.velocity : ℚ) * prev.duration *
                    cfg.monophonic_switch_strength_ratio) ||
                 decide ((if prev.duration > cfg.eps then
                    (ne.start - prev.start) / prev.duration else 0) ≥
                  cfg.monophonic_switch_after_frac))) = true
            · simp only [if_pos hsw, List.dropLast_concat]
              have := ih (done ++ [NoteEvent.mk none prev.pitch prev.start
                (max cfg.eps (ne.start - prev.start)) prev.velocity])
                (some ne) (by intro h; cases h)
              simpa using this
            · simp only [if_neg hsw]
              by_cases hdelay : cfg.monophonic_delay_weak_overlaps = true
              · simp only [if_pos hdelay]
                have := ih (done ++ [prev])
                  (some (NoteEvent.mk none ne.pitch
                    (prev.start + prev.duration) ne.duration ne.velocity))
                  (by intro h; cases h)
                simpa using this
              · simp only [if_neg hdelay]
                exact ih done (some prev) (by intro h; cases h)

/-- C8 (amended): the monophonic reduction sorts by (start, -velocity,
-duration) and maintains a cursor holding the last kept note (its end time
playing the last_end role): a noise note (shorter than noise_min_duration
and weaker than noise_min_velocity) is always dropped; a note starting at or
after last_end minus eps is appended; an overlapping non-noise note either
trims the held note to end at the new start and replaces it as cursor - when
it lasts at least monophonic_min_switch_duration seconds and is either
sufficiently stronger (velocity times duration, by the configured ratio) or
starts at least the configured fraction into the held note - or otherwise is
dropped (the default) or delayed to start at last_end with unchanged
duration when delaying is enabled.  No note is ever pulled up to last_end
and proportionally shortened. -/
theorem C8_make_monophonic_cursor (cfg : OptimizeConfig)
    (notes : List NoteEvent) :
    _make_monophonic notes cfg = _make_monophonic_cursor notes cfg := by
  unfold _make_monophonic _make_monophonic_cursor
  by_cases h : notes = []
  · rw [if_pos h, if_pos h]
  · rw [if_neg h, if_neg h]
    have heq := _mono_loop_cursor_eq cfg (pySorted monoSortLE notes) [] none
      (fun _ => rfl)
    simpa using heq

/-- Strong loud note. -/
def n8a : NoteEvent := ⟨none, 60, 0, 1, 100⟩

/-- Overlapping second note starting halfway through the first. -/
def n8b : NoteEvent := ⟨none, 62, 1/2, 1, 100⟩

/-- C8 counterexample: on two equally loud overlapping notes the code trims
the previous note to end at the new start and keeps the new note's own
timing, whereas the claimed reduction keeps the previous note whole and
pulls the new note up to last_end with a proportionally shortened duration;
the outputs differ. -/
theorem C8_make_monophonic_counterexample :
    _make_monophonic [n8a, n8b] _default_config
      = [⟨none, 60, 0, 1/2, 100⟩, n8b] ∧
    _mono_claimed [n8a, n8b] = [n8a, ⟨none, 62, 1, 1/2, 100⟩] ∧
    _make_monophonic [n8a, n8b] _default_config ≠ _mono_claimed [n8a, n8b] := by
  refine ⟨?_, ?_, ?_⟩
  · with_unfolding_all rfl
  · with_unfolding_all rfl
  · with_unfolding_all decide

theorem startPitchLE_total (a b : NoteEvent) :
    (startPitchLE a b || startPitchLE b a) = true :=
  qlexk_total _ _ true true rfl

theorem startPitchLE_trans (a b c : NoteEvent)
    (h1 : startPitchLE a b = true) (h2 : startPitchLE b c = true) :
    startPitchLE a c = true :=
  qlexk_trans _ _ _ true true true (fun _ _ => rfl) h1 h2

theorem safe_filterMap_eq_map :
    ∀ l : List NoteEvent, (∀ n ∈ l, 0 < n.duration) →
      l.filterMap (fun ne =>
        if _is_noise ne _safe_config then none
        else some (NoteEvent.mk none ne.pitch ne.start ne.duration ne.velocity))
      = l.map (fun n => { n with id := none }) := by
  intro l
  induction l with
  | nil => intro _; rfl
  | cons a rest ih =>
    intro h
    have hd := h a (by simp)
    have hno : _is_noise a _safe_config = false := by
      simp only [_is_noise, _safe_config, _default_config, Bool.and_eq_false_iff,
        decide_eq_false_iff_not, not_lt]
      exact Or.inl (le_of_lt hd)
    simp only [List.filterMap_cons, List.map_cons, hno, Bool.false_eq_true,
      if_false]
    rw [ih (fun x hx => h x (by simp [hx]))]

/-- C4 (amended): with the configuration the safe preset builds (no
quantization, no pitch clamps, velocity levelling off, zero noise
thresholds, no merging, no monophonic reduction), the optimizer keeps every
note of a validated track (a validated score cannot contain notes with
duration ≤ 0 or start < 0, so the count of dropped notes is zero), changes
no timing and no velocity, merges nothing, and only stable-sorts the notes
by (start, pitch) while rebuilding the note objects without ids.  The
dataclass-default OptimizeConfig, by contrast, is not safe (see the
counterexample). -/
theorem C4_safe_optimizer (tr : Track) (bpm : ℚ)
    (hval : ∀ n ∈ tr.notes, 0 < n.duration) :
    (_optimize_track tr bpm _safe_config).notes
        = pySorted startPitchLE (tr.notes.map (fun n => { n with id := none })) ∧
    ((_optimize_track tr bpm _safe_config).notes).Perm
        (tr.notes.map (fun n => { n with id := none })) ∧
    ((_optimize_track tr bpm _safe_config).notes).length = tr.notes.length ∧
    ((_optimize_track tr bpm _safe_config).notes).Pairwise
        (fun a b => startPitchLE a b = true) ∧
    (_optimize_track tr bpm _safe_config).name = tr.name ∧
    (_optimize_track tr bpm _safe_config).program = tr.program ∧
    (_optimize_track tr bpm _safe_config).channel = tr.channel := by
  have heq : (_optimize_track tr bpm _safe_config).notes
      = pySorted startPitchLE (tr.notes.map (fun n => { n with id := none })) := by
    show pySorted startPitchLE
        (tr.notes.filterMap (fun ne =>
          if _is_noise ne _safe_config then none
          else some (NoteEvent.mk none ne.pitch ne.start ne.duration
            ne.velocity)))
      = pySorted startPitchLE (tr.notes.map (fun n => { n with id := none }))
    rw [safe_filterMap_eq_map tr.notes hval]
  refine ⟨heq, ?_, ?_, ?_, rfl, rfl, rfl⟩
  · rw [heq]
    exact pySorted_perm _ _
  · rw [heq]
    exact ((pySorted_perm _ _).length_eq).trans (List.length_map _ _)
  · rw [heq]
    exact pySorted_pairwise startPitchLE_total startPitchLE_trans _

/-- One-note track with velocity 64. -/
def t4 : Track := ⟨none, some (.inl "m"), none, none, [⟨none, 60, 0, 1, 64⟩]⟩

/-- C4 counterexample: the dataclass-default OptimizeConfig (the
configuration the optimizer runs with when none is chosen explicitly) is not
safe: on a single valid note with velocity 64 it coerces the velocity to 80
without being asked. -/
theorem C4_safe_optimizer_counterexample :
    (_optimize_track t4 120 _default_config).notes
      = [⟨none, 60, 0, 1, 80⟩] ∧
    t4.notes = [⟨none, 60, 0, 1, 64⟩] ∧
    (80 : ℤ) ≠ 64 := by
  refine ⟨?_, rfl, by decide⟩
  with_unfolding_all rfl

theorem C4_safe_optimizer_witness :
    (∀ n ∈ t4.notes, 0 < n.duration) ∧
    ((_optimize_track t4 120 _safe_config).notes
        = pySorted startPitchLE (t4.notes.map (fun n => { n with id := none })) ∧
      ((_optimize_track t4 120 _safe_config).notes).Perm
        (t4.notes.map (fun n => { n with id := none })) ∧
      ((_optimize_track t4 120 _safe_config).notes).length
        = t4.notes.length ∧
      ((_optimize_track t4 120 _safe_config).notes).Pairwise
        (fun a b => startPitchLE a b = true) ∧
      (_optimize_track t4 120 _safe_config).name = t4.name ∧
      (_optimize_track t4 120 _safe_config).program = t4.program ∧
      (_optimize_track t4 120 _safe_config).channel = t4.channel) :=
  have hv : ∀ n ∈ t4.notes, 0 < n.duration := by
    intro n hn
    simp only [t4, List.mem_singleton] at hn
    subst hn
    norm_num
  ⟨hv, C4_safe_optimizer t4 120 hv⟩

theorem C9_track_name_witness :
    d9.validB = true ∧
    (∃ out, normalize_score hashConst d9 6 true = .ok out ∧
      out.tracks.length = d9.tracks.length ∧
      ∀ (ti : ℕ) (tr : Track), d9.tracks[ti]? = some tr →
        ∃ tr', out.tracks[ti]? = some tr' ∧
          tr'.name = some (.inl (match tr.name with
            | none => "Track" ++ toString ti
            | some v => pyStrName v))) :=
  ⟨by decide, C9_track_name hashConst d9 (by decide)⟩

/-! ## C3: idempotence of normalize_score -/

theorem mapFix {α : Type} (f : α → α) :
    ∀ l : List α, (∀ x ∈ l, f x = x) → l.map f = l := by
  intro l
  induction l with
  | nil => intro _; rfl
  | cons a as ih =>
    intro hfa
    simp only [List.map_cons]
    rw [hfa a (by simp), ih (fun x hx => hfa x (by simp [hx]))]

theorem noteKeyLE_total (a b : NoteEvent) :
    (noteKeyLE a b || noteKeyLE b a) = true := by
  unfold noteKeyLE
  exact qlexk_total _ _ _ _ (natListLE_total _ _)

theorem noteKeyLE_trans (a b c : NoteEvent) (h1 : noteKeyLE a b = true)
    (h2 : noteKeyLE b c = true) : noteKeyLE a c = true := by
  unfold noteKeyLE at h1 h2 ⊢
  exact qlexk_trans _ _ _ _ _ _ (fun x y => natListLE_trans _ _ _ x y) h1 h2

theorem strFalsy_cat (pre x : String) (h : 0 < pre.length) :
    strFalsy (some (pre ++ x)) = false := by
  unfold strFalsy
  rw [beq_eq_false_iff_ne]
  intro he
  have hlen : pre.length + x.length = ("" : String).length := by
    rw [← String.length_append, he]
  have h0 : ("" : String).length = 0 := rfl
  omega

theorem roundNote_idem (n : ℕ) (ne : NoteEvent) :
    roundNote n (roundNote n ne) = roundNote n ne := by
  unfold roundNote
  dsimp only
  rw [pyRound_idem, pyRound_idem]

theorem roundNote_id_update (n : ℕ) (ne : NoteEvent) (v : Option String) :
    roundNote n { ne with id := v } = { roundNote n ne with id := v } := rfl

theorem assignNoteIds_cons (h : String → String) (tid : Option String)
    (seen : String → ℕ) (ne : NoteEvent) (rest : List NoteEvent) :
    assignNoteIds h tid seen (ne :: rest) =
      if ¬ strFalsy ne.id then ne :: assignNoteIds h tid seen rest
      else
        { ne with id := some ("n_" ++ _sha1_short h
            (pyShowOptStr tid ++ "|" ++ noteContentKey ne ++ "|"
              ++ toString (seen (noteContentKey ne))) 12) } ::
          assignNoteIds h tid
            (fun k => if k = noteContentKey ne
              then seen (noteContentKey ne) + 1 else seen k) rest := rfl

theorem assignNoteIds_fixId (h : String → String) (tid : Option String) :
    ∀ (l : List NoteEvent) (seen : String → ℕ),
      (∀ ne ∈ l, strFalsy ne.id = false) →
      assignNoteIds h tid seen l = l := by
  intro l
  induction l with
  | nil => intro seen _; rfl
  | cons ne rest ih =>
    intro seen hl
    have hne : ¬ strFalsy ne.id = true := by
      rw [hl ne (by simp)]
      simp
    rw [assignNoteIds_cons, if_pos hne,
      ih seen (fun x hx => hl x (by simp [hx]))]

theorem assignNoteIds_truthy (h : String → String) (tid : Option String) :
    ∀ (l : List NoteEvent) (seen : String → ℕ) (x : NoteEvent),
      x ∈ assignNoteIds h tid seen l → strFalsy x.id = false := by
  intro l
  induction l with
  | nil => intro seen x hx; exact absurd hx (by simp [assignNoteIds])
  | cons ne rest ih =>
    intro seen x hx
    rw [assignNoteIds_cons] at hx
    by_cases hid : ¬ strFalsy ne.id = true
    · rw [if_pos hid] at hx
      rcases List.mem_cons.mp hx with rfl | hx
      · exact Bool.eq_false_iff.mpr hid
      · exact ih seen x hx
    · rw [if_neg hid] at hx
      rcases List.mem_cons.mp hx with rfl | hx
      · exact strFalsy_cat "n_" _ (by decide)
      · exact ih _ x hx

theorem assignNoteIds_shape (h : String → String) (tid : Option String) :
    ∀ (l : List NoteEvent) (seen : String → ℕ) (x : NoteEvent),
      x ∈ assignNoteIds h tid seen l →
      ∃ y ∈ l, x.pitch = y.pitch ∧ x.start = y.start ∧
        x.duration = y.duration ∧ x.velocity = y.velocity := by
  intro l
  induction l with
  | nil => intro seen x hx; exact absurd hx (by simp [assignNoteIds])
  | cons ne rest ih =>
    intro seen x hx
    rw [assignNoteIds_cons] at hx
    by_cases hid : ¬ strFalsy ne.id = true
    · rw [if_pos hid] at hx
      rcases List.mem_cons.mp hx with rfl | hx
      · exact ⟨x, by simp, rfl, rfl, rfl, rfl⟩
      · rcases ih seen x hx with ⟨y, hy, h1, h2, h3, h4⟩
        exact ⟨y, List.mem_cons_of_mem _ hy, h1, h2, h3, h4⟩
    · rw [if_neg hid] at hx
      rcases List.mem_cons.mp hx with rfl | hx
      · exact ⟨ne, by simp, rfl, rfl, rfl, rfl⟩
      · rcases ih _ x hx with ⟨y, hy, h1, h2, h3, h4⟩
        exact ⟨y, List.mem_cons_of_mem _ hy, h1, h2, h3, h4⟩

theorem assignNoteIds_rfix (h : String → String) (tid : Option String) (n : ℕ) :
    ∀ (l : List NoteEvent) (seen : String → ℕ),
      (∀ ne ∈ l, roundNote n ne = ne) →
      ∀ x ∈ assignNoteIds h tid seen l, roundNote n x = x := by
  intro l
  induction l with
  | nil => intro seen _ x hx; exact absurd hx (by simp [assignNoteIds])
  | cons ne rest ih =>
    intro seen hl x hx
    rw [assignNoteIds_cons] at hx
    by_cases hid : ¬ strFalsy ne.id = true
    · rw [if_pos hid] at hx
      rcases List.mem_cons.mp hx with rfl | hx
      · exact hl x (by simp)
      · exact ih seen (fun z hz => hl z (by simp [hz])) x hx
    · rw [if_neg hid] at hx
      rcases List.mem_cons.mp hx with rfl | hx
      · rw [roundNote_id_update, hl ne (by simp)]
      · exact ih _ (fun z hz => hl z (by simp [hz])) x hx

/-- Coerced track name of normalize_score at index ti (always a string). -/
def normName (ti : ℕ) (tr : Track) : String ⊕ ℤ :=
  match tr.name with
  | none => .inl ("Track" ++ toString ti)
  | some v => .inl (pyStrName v)

/-- Track id normalize_score settles on at index ti. -/
def normTid (h : String → String) (ids : Bool) (ti : ℕ) (tr : Track) :
    Option String :=
  if ids ∧ strFalsy tr.id then
    some ("t_" ++ _sha1_short h
      (toString ti ++ "|" ++ pyStrName (normName ti tr) ++ "|"
        ++ pyShowOptInt tr.channel ++ "|" ++ pyShowOptInt tr.program) 10)
  else tr.id

/-- Note list normalize_score settles on at index ti: rounded, id-assigned
when ensure_ids, stably sorted by the note key. -/
def normNotes (h : String → String) (n : ℕ) (ids : Bool) (ti : ℕ)
    (tr : Track) : List NoteEvent :=
  pySorted noteKeyLE
    (if ids then
      assignNoteIds h (normTid h ids ti tr) (fun _ => 0)
        (tr.notes.map (roundNote n))
     else tr.notes.map (roundNote n))

theorem normalizeTrack_eq (h : String → String) (n : ℕ) (ids : Bool)
    (ti : ℕ) (tr : Track) :
    normalizeTrack h n ids ti tr =
      Track.mk (normTid h ids ti tr) (some (normName ti tr)) tr.program
        tr.channel (normNotes h n ids ti tr) := rfl

theorem pyStrName_normName (ti : ℕ) (tr : Track) :
    Sum.inl (pyStrName (normName ti tr)) = normName ti tr := by
  unfold normName
  cases tr.name <;> rfl

theorem normTid_fix (h : String → String) (ids : Bool) (ti : ℕ) (tr T : Track)
    (hid : T.id = normTid h ids ti tr) :
    normTid h ids ti T = T.id := by
  by_cases hids : ids = true
  case neg =>
    have hids2 : ids = false := Bool.eq_false_iff.mpr hids
    subst hids2
    unfold normTid
    rw [if_neg (fun hc => Bool.noConfusion hc.1)]
  case pos =>
    subst hids
    have hfalse : strFalsy T.id = false := by
      unfold normTid at hid
      by_cases htr : strFalsy tr.id = true
      · rw [if_pos ⟨rfl, htr⟩] at hid
        rw [hid]
        exact strFalsy_cat "t_" _ (by decide)
      · rw [if_neg (fun hc => htr hc.2)] at hid
        rw [hid]
        exact Bool.eq_false_iff.mpr htr
    unfold normTid
    rw [if_neg (fun hc => absurd hc.2 (by simp [hfalse]))]

theorem normNotes_fix (h : String → String) (n : ℕ) (ids : Bool) (ti : ℕ)
    (tr T : Track) (hnotes : T.notes = normNotes h n ids ti tr) :
    normNotes h n ids ti T = T.notes := by
  have hfix : ∀ x ∈ T.notes, roundNote n x = x := by
    intro x hx
    rw [hnotes] at hx
    unfold normNotes at hx
    have hx2 := (pySorted_perm noteKeyLE _).mem_iff.mp hx
    by_cases hids : ids = true
    · rw [if_pos hids] at hx2
      refine assignNoteIds_rfix h _ n _ _ ?_ x hx2
      intro z hz
      rcases List.mem_map.mp hz with ⟨w, _, rfl⟩
      exact roundNote_idem n w
    · rw [if_neg hids] at hx2
      rcases List.mem_map.mp hx2 with ⟨w, _, rfl⟩
      exact roundNote_idem n w
  have htruthy : ids = true → ∀ x ∈ T.notes, strFalsy x.id = false := by
    intro hids x hx
    rw [hnotes] at hx
    unfold normNotes at hx
    have hx2 := (pySorted_perm noteKeyLE _).mem_iff.mp hx
    rw [if_pos hids] at hx2
    exact assignNoteIds_truthy h _ _ _ x hx2
  have hpw : T.notes.Pairwise (fun a b => noteKeyLE a b = true) := by
    rw [hnotes]
    unfold normNotes
    exact pySorted_pairwise noteKeyLE_total noteKeyLE_trans _
  unfold normNotes
  by_cases hids : ids = true
  · rw [if_pos hids, mapFix (roundNote n) T.notes hfix,
      assignNoteIds_fixId h (normTid h ids ti T) T.notes (fun _ => 0)
        (htruthy hids)]
    exact pySorted_of_pairwise hpw
  · rw [if_neg hids, mapFix (roundNote n) T.notes hfix]
    exact pySorted_of_pairwise hpw

theorem normalizeTrack_idem (h : String → String) (n : ℕ) (ids : Bool)
    (ti : ℕ) (tr : Track) :
    normalizeTrack h n ids ti (normalizeTrack h n ids ti tr)
      = normalizeTrack h n ids ti tr := by
  have e := normalizeTrack_eq h n ids ti tr
  rw [e]
  rw [normalizeTrack_eq]
  rw [normTid_fix h ids ti tr _ rfl]
  have hnm : normName ti (Track.mk (normTid h ids ti tr)
      (some (normName ti tr)) tr.program tr.channel
      (normNotes h n ids ti tr)) = normName ti tr := pyStrName_normName ti tr
  rw [hnm]
  have hnt : normNotes h n ids ti (Track.mk (normTid h ids ti tr)
      (some (normName ti tr)) tr.program tr.channel
      (normNotes h n ids ti tr)) = normNotes h n ids ti tr :=
    normNotes_fix h n ids ti tr _ rfl
  rw [hnt]

theorem normNotes_shape (h : String → String) (n : ℕ) (ids : Bool) (ti : ℕ)
    (tr : Track) (x : NoteEvent) (hx : x ∈ normNotes h n ids ti tr) :
    ∃ z ∈ tr.notes, x.pitch = z.pitch ∧ x.start = pyRound z.start n ∧
      x.duration = pyRound z.duration n ∧ x.velocity = z.velocity := by
  unfold normNotes at hx
  have hx2 := (pySorted_perm noteKeyLE _).mem_iff.mp hx
  by_cases hids : ids = true
  · rw [if_pos hids] at hx2
    rcases assignNoteIds_shape h _ _ _ x hx2 with ⟨y, hy, h1, h2, h3, h4⟩
    rcases List.mem_map.mp hy with ⟨z, hz, rfl⟩
    exact ⟨z, hz, h1, h2, h3, h4⟩
  · rw [if_neg hids] at hx2
    rcases List.mem_map.mp hx2 with ⟨z, hz, rfl⟩
    exact ⟨z, hz, rfl, rfl, rfl, rfl⟩

theorem normalizeTrack_valid (h : String → String) (n : ℕ) (ids : Bool)
    (ti : ℕ) (tr : Track) (hv : tr.validB = true)
    (hd : ∀ ne ∈ tr.notes, 0 < pyRound ne.duration n) :
    (normalizeTrack h n ids ti tr).validB = true := by
  rw [normalizeTrack_eq]
  unfold Track.validB at hv ⊢
  simp only [Bool.and_eq_true] at hv ⊢
  obtain ⟨⟨hprog, hchan⟩, hnotes⟩ := hv
  refine ⟨⟨hprog, hchan⟩, ?_⟩
  rw [List.all_eq_true] at hnotes ⊢
  intro x hx
  rcases normNotes_shape h n ids ti tr x hx with ⟨z, hz, h1, h2, h3, h4⟩
  have hzv := hnotes z hz
  unfold NoteEvent.validB at hzv ⊢
  simp only [Bool.and_eq_true, decide_eq_true_eq] at hzv ⊢
  obtain ⟨⟨⟨⟨⟨hb1, hb2⟩, hb3⟩, hb4⟩, hb5⟩, hb6⟩ := hzv
  refine ⟨⟨⟨⟨⟨?_, ?_⟩, ?_⟩, ?_⟩, ?_⟩, ?_⟩
  · rw [h1]; exact hb1
  · rw [h1]; exact hb2
  · rw [h2]; exact pyRound_nonneg n hb3
  · rw [h3]; exact hd z hz
  · rw [h4]; exact hb5
  · rw [h4]; exact hb6

theorem snd_mem_enumFrom {α : Type} :
    ∀ (l : List α) (i : ℕ) (p : ℕ × α), p ∈ l.enumFrom i → p.2 ∈ l := by
  intro l
  induction l with
  | nil => intro i p hp; simp [List.enumFrom] at hp
  | cons a as ih =>
    intro i p hp
    simp only [List.enumFrom, List.mem_cons] at hp
    rcases hp with rfl | hp
    · simp
    · exact List.mem_cons_of_mem _ (ih (i + 1) p hp)

theorem enumFrom_norm_fix {α : Type} (N : ℕ → α → α)
    (hN : ∀ i t, N i (N i t) = N i t) :
    ∀ (l : List α) (i : ℕ),
      (((l.enumFrom i).map (fun p => N p.1 p.2)).enumFrom i).map
          (fun p => N p.1 p.2)
        = (l.enumFrom i).map (fun p => N p.1 p.2) := by
  intro l
  induction l with
  | nil => intro i; rfl
  | cons a as ih =>
    intro i
    simp only [List.enumFrom, List.map_cons]
    rw [hN i a, ih (i + 1)]

/-- C3 (amended): normalize is idempotent on every score it accepts whose
note durations stay positive after rounding: if the input validates and
every note duration rounds (half to even, round_ndigits digits) to a
positive value, normalize succeeds and its output is a fixed point (same
ids, same rounding, same sort order, same coerced types).  Without that
proviso idempotence fails: a valid note with a tiny positive duration
rounds to duration 0, the first output then no longer validates, and the
second application returns a validation error instead of the first output
(see the counterexample). -/
theorem C3_normalize_idempotent (h : String → String) (doc : ScoreDoc)
    (n : ℕ) (ids : Bool) (hv : doc.validB = true)
    (hd : ∀ tr ∈ doc.tracks, ∀ ne ∈ tr.notes, 0 < pyRound ne.duration n) :
    ∃ out, normalize_score h doc n ids = Except.ok out ∧
      normalize_score h out n ids = Except.ok out := by
  refine ⟨ScoreDoc.mk doc.version doc.tempo_bpm doc.time_signature
    (doc.tracks.enum.map (fun p => normalizeTrack h n ids p.1 p.2)), ?_, ?_⟩
  · unfold normalize_score
    rw [if_neg (fun hc => hc hv)]
  · have hvout : (ScoreDoc.mk doc.version doc.tempo_bpm doc.time_signature
        (doc.tracks.enum.map
          (fun p => normalizeTrack h n ids p.1 p.2))).validB = true := by
      unfold ScoreDoc.validB at hv ⊢
      simp only [Bool.and_eq_true] at hv ⊢
      obtain ⟨ht, hall⟩ := hv
      refine ⟨ht, ?_⟩
      rw [List.all_eq_true] at hall ⊢
      intro tr' htr'
      rcases List.mem_map.mp htr' with ⟨p, hp, rfl⟩
      have hmem : p.2 ∈ doc.tracks := snd_mem_enumFrom doc.tracks 0 p hp
      exact normalizeTrack_valid h n ids p.1 p.2 (hall p.2 hmem) (hd p.2 hmem)
    unfold normalize_score
    rw [if_neg (fun hc => hc hvout)]
    have htr : (((doc.tracks.enum.map
          (fun p => normalizeTrack h n ids p.1 p.2)).enum).map
            (fun p => normalizeTrack h n ids p.1 p.2))
        = doc.tracks.enum.map (fun p => normalizeTrack h n ids p.1 p.2) :=
      enumFrom_norm_fix (fun i t => normalizeTrack h n ids i t)
        (fun i t => normalizeTrack_idem h n ids i t) doc.tracks 0
    exact congrArg (fun ts => Except.ok (ScoreDoc.mk doc.version
      doc.tempo_bpm doc.time_signature ts)) htr

/-- A valid score with one note whose duration 1/1000000000 is positive but
rounds to 0 at 6 digits. -/
def d3 : ScoreDoc :=
  ⟨1, 120, "4/4",
    [⟨some "t", some (.inl "m"), none, none,
      [⟨some "x", 60, 0, 1/1000000000, 64⟩]⟩]⟩

/-- C3 counterexample: on d3 the first normalize succeeds but zeroes the
tiny duration, so the second normalize rejects the first output instead of
returning it: normalize is not idempotent on all scores. -/
theorem C3_normalize_idempotent_counterexample :
    normalize_score hashConst d3 6 true
      = Except.ok (ScoreDoc.mk 1 120 "4/4"
          [Track.mk (some "t") (some (.inl "m")) none none
            [NoteEvent.mk (some "x") 60 0 0 64]]) ∧
    normalize_score hashConst
        (ScoreDoc.mk 1 120 "4/4"
          [Track.mk (some "t") (some (.inl "m")) none none
            [NoteEvent.mk (some "x") 60 0 0 64]]) 6 true
      = Except.error "validation error" := by
  constructor
  · with_unfolding_all rfl
  · with_unfolding_all rfl

/-- A valid score whose note durations survive rounding. -/
def d3w : ScoreDoc :=
  ⟨1, 120, "4/4",
    [⟨some "t", some (.inl "m"), none, none,
      [⟨some "x", 60, 0, 1/2, 64⟩]⟩]⟩

theorem C3_normalize_idempotent_witness :
    ∃ out, normalize_score hashConst d3w 6 true = Except.ok out ∧
      normalize_score hashConst out 6 true = Except.ok out :=
  C3_normalize_idempotent hashConst d3w 6 true
    (by with_unfolding_all decide)
    (by with_unfolding_all decide)


end Hum2Song
